import Mathlib

/-!
Shallow embedding of `dataset.py` (class `YOLODataset`) and proofs about its
two core algorithms: the mosaic label finalization (`load_mosaic`, lines
110-118), the mosaic quadrant placement rules (lines 85-100), and the anchor
target encoder (`__getitem__`, lines 131-161).

Real numbers of the Python code (numpy/torch floats) are modelled as `ℚ`;
machine integers as `ℤ`/`ℕ`.  Fallible operations (list / tensor indexing,
integer division by zero) are modelled in `Option`, mirroring the Python
exceptions (`IndexError`, `ZeroDivisionError`).
-/

/-- Python `int(...)` applied to a float: truncation toward zero. -/
def pyInt (q : ℚ) : ℤ :=
  if 0 ≤ q then ⌊q⌋ else -⌊-q⌋

/-- `np.clip(v, lo, hi)` for scalars (with `lo ≤ hi`). -/
def clipQ (lo hi v : ℚ) : ℚ :=
  min (max v lo) hi

/-- Integer indexing into an axis of length `n`, with Python/numpy/torch
negative-index wrap-around; out-of-range indices raise (`none`). -/
def idxA (n : ℕ) (i : ℤ) : Option ℕ :=
  if 0 ≤ i ∧ i < (n : ℤ) then some i.toNat
  else if -(n : ℤ) ≤ i ∧ i < 0 then some (i + n).toNat
  else none

/-- Modelled from the spec: `iou_width_height` of the repository's `utils`
module (not under `src/`).  "IoU (width-height): intersection-over-union
computed from box dimensions alone, both boxes centered at a common origin":
`inter = min w₁ w₂ * min h₁ h₂`, `union = w₁h₁ + w₂h₂ - inter`. -/
def iouWH (b a : ℚ × ℚ) : ℚ :=
  let inter := min b.1 a.1 * min b.2 a.2
  inter / (b.1 * b.2 + a.1 * a.2 - inter)

/-- Modelled from the spec: `xyxy2xywhn` of the repository's `utils` module
(not under `src/`): "convert back to normalized xywh relative to the
`2S × 2S` canvas" — center/size from corners, divided by the canvas size.
Takes the pixel corners `(x1, y1, x2, y2)` and the canvas width/height. -/
def xyxy2xywhn (x1 y1 x2 y2 w h : ℚ) : ℚ × ℚ × ℚ × ℚ :=
  (((x1 + x2) / 2) / w, ((y1 + y2) / 2) / h, (x2 - x1) / w, (y2 - y1) / h)

/-- A bounding box as it appears in a label row after `np.roll`:
`(x, y, width, height, class_label)`, spatial fields normalized. -/
structure Box where
  x : ℚ
  y : ℚ
  w : ℚ
  h : ℚ
  cls : ℚ
deriving DecidableEq, Repr

/-- One `6`-channel entry of a target tensor:
`[objectness, x_cell, y_cell, w_cells, h_cells, class_id]`. -/
structure TCell where
  obj : ℚ
  xc : ℚ
  yc : ℚ
  wc : ℚ
  hc : ℚ
  cls : ℚ
deriving DecidableEq, Repr

/-- The all-zero channel entry (`torch.zeros`). -/
def TCell.zero : TCell := ⟨0, 0, 0, 0, 0, 0⟩

/-- A per-scale target tensor of shape `(napc, S, S, 6)`: the two dimension
fields plus the cell contents as a function of `(anchor, row, col)`. -/
structure Tgt where
  napc : ℕ
  S : ℕ
  data : ℕ → ℕ → ℕ → TCell

/-- Point update of one `(anchor, row, col)` cell of a target tensor. -/
def Tgt.setCell (t : Tgt) (ra ri rj : ℕ) (c : TCell) : Tgt :=
  { t with data := fun a i j => if a = ra ∧ i = ri ∧ j = rj then c else t.data a i j }

/-- The configuration state built by `YOLODataset.__init__` (lines 42-53),
restricted to the fields the two core algorithms read.  I/O fields
(`annotations`, `img_dir`, `label_dir`, `transform`) and the probability
gate are outside the embedding. -/
structure YOLODataset where
  imageSize : ℕ
  S : List ℕ
  anchors : List (ℚ × ℚ)
  numAnchors : ℕ
  numAnchorsPerScale : ℕ
  ignoreIouThresh : ℚ
deriving DecidableEq, Repr

/-- `YOLODataset.__init__` (lines 50-53):
`anchors = torch.tensor(anchors[0] + anchors[1] + anchors[2])` (an
`IndexError` — `none` — when fewer than three groups are supplied; any
further groups are ignored), `num_anchors_per_scale = num_anchors // 3`
(floor division, no divisibility check), `ignore_iou_thresh = 0.5`. -/
def YOLODataset.init (imageSize : ℕ) (S : List ℕ)
    (anchorGroups : List (List (ℚ × ℚ))) : Option YOLODataset := do
  let g0 ← anchorGroups[0]?
  let g1 ← anchorGroups[1]?
  let g2 ← anchorGroups[2]?
  let anchors := g0 ++ g1 ++ g2
  some { imageSize := imageSize
         S := S
         anchors := anchors
         numAnchors := anchors.length
         numAnchorsPerScale := anchors.length / 3
         ignoreIouThresh := 1 / 2 }

/-! ## Mosaic composition (`load_mosaic`) -/

/-- The four quadrant placement rules of `load_mosaic` (lines 85-98): given
the quadrant number `i`, image size `s`, source image height/width `h, w`
and mosaic center `(xc, yc)`, returns the destination rectangle
`(x1a, y1a, x2a, y2a)` on the `2s × 2s` canvas and the source rectangle
`(x1b, y1b, x2b, y2b)` on the source image, both as in the Python code. -/
def mosaicRects (i : Fin 4) (s h w xc yc : ℤ) : (ℤ × ℤ × ℤ × ℤ) × (ℤ × ℤ × ℤ × ℤ) :=
  match i with
  | 0 =>
    let x1a := max (xc - w) 0; let y1a := max (yc - h) 0
    let x2a := xc; let y2a := yc
    ((x1a, y1a, x2a, y2a), (w - (x2a - x1a), h - (y2a - y1a), w, h))
  | 1 =>
    let x1a := xc; let y1a := max (yc - h) 0
    let x2a := min (xc + w) (2 * s); let y2a := yc
    ((x1a, y1a, x2a, y2a), (0, h - (y2a - y1a), min w (x2a - x1a), h))
  | 2 =>
    let x1a := max (xc - w) 0; let y1a := yc
    let x2a := xc; let y2a := min (2 * s) (yc + h)
    ((x1a, y1a, x2a, y2a), (w - (x2a - x1a), 0, w, min (y2a - y1a) h))
  | 3 =>
    let x1a := xc; let y1a := yc
    let x2a := min (xc + w) (2 * s); let y2a := min (2 * s) (yc + h)
    ((x1a, y1a, x2a, y2a), (0, 0, min w (x2a - x1a), min (y2a - y1a) h))

/-- A concatenated mosaic label row before finalization:
pixel `xyxy` corners plus the class (`labels4` after line 110). -/
structure LBox where
  x1 : ℚ
  y1 : ℚ
  x2 : ℚ
  y2 : ℚ
  cls : ℚ
deriving DecidableEq, Repr

/-- A normalized `xywh` label row (the output format of `load_mosaic`). -/
structure NBox where
  x : ℚ
  y : ℚ
  w : ℚ
  h : ℚ
  cls : ℚ
deriving DecidableEq, Repr

/-- The per-row finalization of `load_mosaic` (lines 111-115): clip the pixel
corners to `[0, 2s]`, convert to normalized `xywh` relative to the
`2s × 2s` canvas, clip the normalized coordinates to `[0, 1]`. -/
def mosaicClipOne (s : ℕ) (b : LBox) : NBox :=
  let x1 := clipQ 0 (2 * s) b.x1
  let y1 := clipQ 0 (2 * s) b.y1
  let x2 := clipQ 0 (2 * s) b.x2
  let y2 := clipQ 0 (2 * s) b.y2
  let n := xyxy2xywhn x1 y1 x2 y2 (2 * s) (2 * s)
  ⟨clipQ 0 1 n.1, clipQ 0 1 n.2.1, clipQ 0 1 n.2.2.1, clipQ 0 1 n.2.2.2, b.cls⟩

/-- `load_mosaic` label finalization (lines 110-117): per-row clipping and
re-normalization, then the two filters `labels4[:, 2] > 0` and
`labels4[:, 3] > 0` dropping degenerate boxes. -/
def mosaicFinalize (s : ℕ) (l : List LBox) : List NBox :=
  (((l.map (mosaicClipOne s)).filter (fun b => decide (0 < b.w))).filter
    (fun b => decide (0 < b.h)))

/-! ## Theorems: constructor and mosaic claims -/

/-- Helper: the constructor always succeeds on three (or more) anchor groups
and performs plain floor division by 3; extra groups are ignored. -/
theorem YOLODataset.init_eq (imageSize : ℕ) (S : List ℕ)
    (g0 g1 g2 : List (ℚ × ℚ)) (rest : List (List (ℚ × ℚ))) :
    YOLODataset.init imageSize S (g0 :: g1 :: g2 :: rest) =
      some { imageSize := imageSize
             S := S
             anchors := g0 ++ g1 ++ g2
             numAnchors := (g0 ++ g1 ++ g2).length
             numAnchorsPerScale := (g0 ++ g1 ++ g2).length / 3
             ignoreIouThresh := 1 / 2 } := by
  simp [YOLODataset.init]

/-- Claim C4, counterexample: constructing with anchor groups of sizes
1, 1, 2 (total 4, not divisible by 3) does not fail at construction — it
succeeds with `numAnchorsPerScale = 4 / 3 = 1` — even though `¬ 3 ∣ 4`.
The claimed fail-fast configuration error does not exist in `__init__`. -/
theorem claim4_counterexample :
    YOLODataset.init 416 [13, 26, 52] [[(1, 1)], [(1, 1)], [(1, 1), (2, 2)]] =
      some { imageSize := 416
             S := [13, 26, 52]
             anchors := [(1, 1), (1, 1), (1, 1), (2, 2)]
             numAnchors := 4
             numAnchorsPerScale := 1
             ignoreIouThresh := 1 / 2 } ∧ ¬ (3 ∣ 4) := by
  constructor
  · with_unfolding_all rfl
  · decide

/-- Claim C4, amended: construction never fails on a non-divisible total
anchor count.  For any three (or more) anchor groups, `__init__` succeeds
and silently computes `anchors_per_scale` by floor division
`total_anchors // 3`; no divisibility validation is performed. -/
theorem claim4_no_failfast_floor_division (imageSize : ℕ) (S : List ℕ)
    (g0 g1 g2 : List (ℚ × ℚ)) (rest : List (List (ℚ × ℚ))) :
    ∃ d : YOLODataset,
      YOLODataset.init imageSize S (g0 :: g1 :: g2 :: rest) = some d ∧
      d.numAnchorsPerScale = (g0 ++ g1 ++ g2).length / 3 := by
  exact ⟨_, YOLODataset.init_eq imageSize S g0 g1 g2 rest, rfl⟩

/-- Claim C7: for each of the four quadrant placement rules, for every
source image size `0 < h, w` and every center `(xc, yc)` inside the
`2s × 2s` canvas, the destination rectangle and the source rectangle have
exactly equal width and equal height. -/
theorem claim7_mosaic_rect_dims (i : Fin 4) (s h w xc yc : ℤ)
    (hh : 0 < h) (hw : 0 < w)
    (hxc0 : 0 ≤ xc) (hxc2 : xc ≤ 2 * s) (hyc0 : 0 ≤ yc) (hyc2 : yc ≤ 2 * s) :
    (mosaicRects i s h w xc yc).1.2.2.1 - (mosaicRects i s h w xc yc).1.1 =
      (mosaicRects i s h w xc yc).2.2.2.1 - (mosaicRects i s h w xc yc).2.1 ∧
    (mosaicRects i s h w xc yc).1.2.2.2 - (mosaicRects i s h w xc yc).1.2.1 =
      (mosaicRects i s h w xc yc).2.2.2.2 - (mosaicRects i s h w xc yc).2.2.1 := by
  fin_cases i <;> simp only [mosaicRects] <;> constructor <;> omega

/-- Claim C7, witness: concrete instantiation (quadrant 1, `s = 320`,
image `200 × 300`, center `(500, 400)`). -/
theorem claim7_witness :
    (0 : ℤ) < 200 ∧ (0 : ℤ) < 300 ∧
    ((mosaicRects 1 320 200 300 500 400).1.2.2.1 -
        (mosaicRects 1 320 200 300 500 400).1.1 =
      (mosaicRects 1 320 200 300 500 400).2.2.2.1 -
        (mosaicRects 1 320 200 300 500 400).2.1) := by
  refine ⟨by decide, by decide, ?_⟩
  exact (claim7_mosaic_rect_dims 1 320 200 300 500 400 (by decide) (by decide)
    (by decide) (by decide) (by decide) (by decide)).1

/-- Claim C8: every box surviving `load_mosaic` finalization has normalized
coordinates in `[0, 1]`, strictly positive normalized width and height, and
is the clipped re-normalization of some input row; boxes whose resulting
width or height is `≤ 0` are absent (every output box has `w > 0 ∧ h > 0`),
and conversely every input row whose finalized width and height are positive
appears in the output. -/
theorem claim8_mosaic_output_boxes (s : ℕ) (l : List LBox) :
    (∀ b ∈ mosaicFinalize s l,
      (0 ≤ b.x ∧ b.x ≤ 1 ∧ 0 ≤ b.y ∧ b.y ≤ 1 ∧
       0 < b.w ∧ b.w ≤ 1 ∧ 0 < b.h ∧ b.h ≤ 1) ∧
      ∃ b' ∈ l, b = mosaicClipOne s b') ∧
    (∀ b' ∈ l, 0 < (mosaicClipOne s b').w → 0 < (mosaicClipOne s b').h →
      mosaicClipOne s b' ∈ mosaicFinalize s l) := by
  constructor
  · intro b hb
    simp only [mosaicFinalize, List.mem_filter, List.mem_map, decide_eq_true_eq] at hb
    obtain ⟨⟨⟨b', hb', rfl⟩, hwpos⟩, hhpos⟩ := hb
    refine ⟨⟨?_, ?_, ?_, ?_, hwpos, ?_, hhpos, ?_⟩, b', hb', rfl⟩ <;>
      simp [mosaicClipOne, clipQ] <;> positivity
  · intro b' hb' hw hh
    simp only [mosaicFinalize, List.mem_filter, List.mem_map, decide_eq_true_eq]
    exact ⟨⟨⟨b', hb', rfl⟩, hw⟩, hh⟩

/-- Claim C8, witness: a concrete input with one surviving box and one
degenerate box; the surviving box's membership and bounds follow from the
claim theorem. -/
theorem claim8_witness :
    mosaicClipOne 320 ⟨-10, -10, 100, 100, 7⟩ ∈
      mosaicFinalize 320 [⟨-10, -10, 100, 100, 7⟩, ⟨-20, -20, -5, -5, 3⟩] ∧
    0 < (mosaicClipOne 320 ⟨-10, -10, 100, 100, 7⟩).w := by
  have h := claim8_mosaic_output_boxes 320
    [⟨-10, -10, 100, 100, 7⟩, ⟨-20, -20, -5, -5, 3⟩]
  have hw : (0 : ℚ) < (mosaicClipOne 320 ⟨-10, -10, 100, 100, 7⟩).w := by
    norm_num [mosaicClipOne, clipQ, xyxy2xywhn]
  have hh : (0 : ℚ) < (mosaicClipOne 320 ⟨-10, -10, 100, 100, 7⟩).h := by
    norm_num [mosaicClipOne, clipQ, xyxy2xywhn]
  exact ⟨h.2 ⟨-10, -10, 100, 100, 7⟩ (by simp) hw hh, hw⟩

/-! ## Anchor target encoder (`__getitem__`, lines 131-161) -/

/-- The candidate ordering relation behind the model of
`iou_anchors.argsort(descending=True, dim=0)` (line 135): anchor index `a`
comes before `c` when its similarity is strictly larger, with ties broken by
original index order.  NOTE: the tie-break is a modelling choice — torch's
default `stable=False` sort leaves the order of equal elements unspecified —
so no claim theorem may depend on the tie-break (see `argsortDesc_sorted`,
which forgets it). -/
def rankBefore (v : List ℚ) (a c : ℕ) : Prop :=
  v.getD c 0 < v.getD a 0 ∨ (v.getD a 0 = v.getD c 0 ∧ a ≤ c)

instance rankBefore.instDecidable (v : List ℚ) : DecidableRel (rankBefore v) :=
  fun a c => by unfold rankBefore; infer_instance

instance rankBefore.instIsTotal (v : List ℚ) : IsTotal ℕ (rankBefore v) := by
  constructor
  intro a c
  unfold rankBefore
  rcases lt_trichotomy (v.getD a 0) (v.getD c 0) with h | h | h
  · exact Or.inr (Or.inl h)
  · rcases Nat.le_total a c with hac | hac
    · exact Or.inl (Or.inr ⟨h, hac⟩)
    · exact Or.inr (Or.inr ⟨h.symm, hac⟩)
  · exact Or.inl (Or.inl h)

instance rankBefore.instIsTrans (v : List ℚ) : IsTrans ℕ (rankBefore v) := by
  constructor
  intro a c e hac hce
  unfold rankBefore at *
  rcases hac with h1 | ⟨h1, h1'⟩ <;> rcases hce with h2 | ⟨h2, h2'⟩
  · exact Or.inl (h2.trans h1)
  · exact Or.inl (h2 ▸ h1)
  · exact Or.inl (h1 ▸ h2)
  · exact Or.inr ⟨h1.trans h2, h1'.trans h2'⟩

/-- Model of `iou_anchors.argsort(descending=True, dim=0)` (line 135): the
indices `0, ..., v.length - 1` sorted by descending value.  A stable
insertion sort realizes the (unspecified) tie order deterministically. -/
def argsortDesc (v : List ℚ) : List ℕ :=
  List.insertionSort (rankBefore v) (List.range v.length)

theorem argsortDesc_perm (v : List ℚ) :
    (argsortDesc v).Perm (List.range v.length) :=
  List.perm_insertionSort _ _

theorem argsortDesc_mem (v : List ℚ) (a : ℕ) :
    a ∈ argsortDesc v ↔ a < v.length := by
  rw [(argsortDesc_perm v).mem_iff, List.mem_range]

theorem argsortDesc_nodup (v : List ℚ) : (argsortDesc v).Nodup :=
  (argsortDesc_perm v).symm.nodup (List.nodup_range _)

/-- Descending sortedness of the candidate order, stated without the
tie-break: any compliant implementation of `argsort(descending=True)`
satisfies this. -/
theorem argsortDesc_sorted (v : List ℚ) :
    (argsortDesc v).Pairwise (fun a c => v.getD c 0 ≤ v.getD a 0) := by
  have h := List.sorted_insertionSort (rankBefore v) (List.range v.length)
  refine h.imp ?_
  intro a c hac
  rcases hac with h1 | ⟨h1, _⟩
  · exact h1.le
  · exact h1.ge

/-- The per-box similarity list, `iou(torch.tensor(box[2:4]), self.anchors)`
(line 134): width-height IoU of the box against every configured anchor. -/
def iousOf (d : YOLODataset) (b : Box) : List ℚ :=
  d.anchors.map (fun a => iouWH (b.w, b.h) a)

/-- The cell row index `i = int(S * y)` (line 142). -/
def cellI (S : ℕ) (b : Box) : ℤ := pyInt ((S : ℚ) * b.y)

/-- The cell column index `j = int(S * x)` (line 142). -/
def cellJ (S : ℕ) (b : Box) : ℤ := pyInt ((S : ℚ) * b.x)

/-- The cell written by a positive claim (lines 145-155):
`[1, S*x - j, S*y - i, w*S, h*S, int(class_label)]`. -/
def payloadCell (S : ℕ) (b : Box) : TCell :=
  ⟨1, (S : ℚ) * b.x - (cellJ S b : ℚ), (S : ℚ) * b.y - (cellI S b : ℚ),
    b.w * (S : ℚ), b.h * (S : ℚ), (pyInt b.cls : ℚ)⟩

/-- One iteration of `for anchor_idx in anchor_indices` (lines 138-159),
acting on the state `(targets, has_anchor)`:

* `scale_idx  = anchor_idx // num_anchors_per_scale` (`ZeroDivisionError`
  — `none` — when `num_anchors_per_scale == 0`),
* `anchor_on_scale = anchor_idx % num_anchors_per_scale`,
* `S = self.S[scale_idx]`, tensor lookup and `(anchor, i, j)` slot
  resolution may raise `IndexError` (`none`),
* `anchor_taken = targets[scale_idx][anchor_on_scale, i, j, 0]`; the float
  is falsy exactly when it is `0` (note `-1` is truthy),
* `if not anchor_taken and not has_anchor[scale_idx]`: write the positive
  payload and set `has_anchor[scale_idx]` (the claim branch),
* `elif not anchor_taken and iou_anchors[anchor_idx] > ignore_iou_thresh`:
  write objectness `-1`, keeping the other channels (the ignore branch). -/
def processAnchor (d : YOLODataset) (b : Box) (ious : List ℚ)
    (st : List Tgt × List Bool) (anchorIdx : ℕ) : Option (List Tgt × List Bool) :=
  if d.numAnchorsPerScale = 0 then none else
  match d.S[anchorIdx / d.numAnchorsPerScale]? with
  | none => none
  | some S =>
    match st.1[anchorIdx / d.numAnchorsPerScale]? with
    | none => none
    | some tgt =>
      match idxA tgt.napc ((anchorIdx % d.numAnchorsPerScale : ℕ) : ℤ) with
      | none => none
      | some ra =>
        match idxA tgt.S (cellI S b) with
        | none => none
        | some ri =>
          match idxA tgt.S (cellJ S b) with
          | none => none
          | some rj =>
            if (tgt.data ra ri rj).obj = 0 then
              match st.2[anchorIdx / d.numAnchorsPerScale]? with
              | none => none
              | some ha =>
                if ha = false then
                  some (st.1.set (anchorIdx / d.numAnchorsPerScale)
                          (tgt.setCell ra ri rj (payloadCell S b)),
                        st.2.set (anchorIdx / d.numAnchorsPerScale) true)
                else
                  match ious[anchorIdx]? with
                  | none => none
                  | some iouV =>
                    if d.ignoreIouThresh < iouV then
                      some (st.1.set (anchorIdx / d.numAnchorsPerScale)
                              (tgt.setCell ra ri rj
                                { tgt.data ra ri rj with obj := -1 }),
                            st.2)
                    else some st
            else some st

/-- The whole `for box in bboxes` body for a single box (lines 133-159):
compute the similarity scores, sort the anchor indices, initialize
`has_anchor = [False] * 3`, and fold the per-candidate step over the sorted
candidates; returns the updated target list. -/
def processBox (d : YOLODataset) (targets : List Tgt) (b : Box) :
    Option (List Tgt) := do
  let ious := iousOf d b
  let st ← (argsortDesc ious).foldlM (processAnchor d b ious)
    (targets, List.replicate 3 false)
  some st.1

/-- `targets = [torch.zeros((self.num_anchors // 3, S, S, 6)) for S in self.S]`
(line 132). -/
def buildTargets (d : YOLODataset) : List Tgt :=
  d.S.map (fun S => { napc := d.numAnchors / 3, S := S, data := fun _ _ _ => TCell.zero })

/-- The target-encoding loop of `__getitem__` (lines 132-161): process each
box in list order against the zero-initialized per-scale tensors. -/
def encodeTargets (d : YOLODataset) (boxes : List Box) : Option (List Tgt) :=
  boxes.foldlM (processBox d) (buildTargets d)

/-- Configuration consistency: the derived fields of `YOLODataset` agree with
the anchor list (as established by `__init__` with three equal-size,
nonempty anchor groups), and there are three positive grid resolutions. -/
def YOLODataset.WellFormed (d : YOLODataset) : Prop :=
  d.numAnchors = d.anchors.length ∧
  d.numAnchorsPerScale = d.numAnchors / 3 ∧
  d.anchors.length = 3 * d.numAnchorsPerScale ∧
  0 < d.numAnchorsPerScale ∧
  d.S.length = 3 ∧
  ∀ S ∈ d.S, 0 < S

/-- One scale's dimension agreement between a target list and the config. -/
def tgtMatchAt (d : YOLODataset) (T : List Tgt) (s : ℕ) : Prop :=
  (T[s]?).map Tgt.napc = some d.numAnchorsPerScale ∧
  (T[s]?).map Tgt.S = d.S[s]?

/-- The target list has one tensor per scale (three scales) whose dimensions
match the configuration. -/
def TgtsMatch (d : YOLODataset) (T : List Tgt) : Prop :=
  T.length = 3 ∧ tgtMatchAt d T 0 ∧ tgtMatchAt d T 1 ∧ tgtMatchAt d T 2

/-! ## The write discipline of the encoder (towards claim C2)

Every write of the encoder is guarded by `anchor_taken == 0`: a cell either
stays exactly as it was, or its objectness moves from `0` to `1` or `-1`. -/

/-- How one channel entry may change during encoding: unchanged, or written
from an unclaimed (`obj = 0`) state to a positive or ignore state. -/
abbrev CellEvolves (c c' : TCell) : Prop :=
  c' = c ∨ (c.obj = 0 ∧ (c'.obj = 1 ∨ c'.obj = -1))

/-- Tensor-level evolution: dimensions unchanged, every cell evolves. -/
abbrev TgtEvolves (t t' : Tgt) : Prop :=
  t'.napc = t.napc ∧ t'.S = t.S ∧
  ∀ a i j : ℕ, CellEvolves (t.data a i j) (t'.data a i j)

/-- Target-list-level evolution: same length, every tensor evolves. -/
abbrev TsEvolves (T T' : List Tgt) : Prop :=
  T'.length = T.length ∧
  ∀ (s : ℕ) (t t' : Tgt), T[s]? = some t → T'[s]? = some t' → TgtEvolves t t'

theorem cellEvolves_refl (c : TCell) : CellEvolves c c := Or.inl rfl

theorem cellEvolves_trans {c c' c'' : TCell}
    (h1 : CellEvolves c c') (h2 : CellEvolves c' c'') : CellEvolves c c'' := by
  rcases h2 with rfl | ⟨h2a, h2b⟩
  · exact h1
  · rcases h1 with rfl | ⟨h1a, h1b⟩
    · exact Or.inr ⟨h2a, h2b⟩
    · exact Or.inr ⟨h1a, h2b⟩

theorem tgtEvolves_refl (t : Tgt) : TgtEvolves t t :=
  ⟨rfl, rfl, fun _ _ _ => cellEvolves_refl _⟩

theorem tgtEvolves_trans {t t' t'' : Tgt}
    (h1 : TgtEvolves t t') (h2 : TgtEvolves t' t'') : TgtEvolves t t'' :=
  ⟨h2.1.trans h1.1, h2.2.1.trans h1.2.1,
    fun a i j => cellEvolves_trans (h1.2.2 a i j) (h2.2.2 a i j)⟩

theorem tsEvolves_refl (T : List Tgt) : TsEvolves T T :=
  ⟨rfl, fun _ _ _ h1 h2 => by rw [h1] at h2; cases h2; exact tgtEvolves_refl _⟩

theorem tsEvolves_trans {T T' T'' : List Tgt}
    (h1 : TsEvolves T T') (h2 : TsEvolves T' T'') : TsEvolves T T'' := by
  refine ⟨h2.1.trans h1.1, ?_⟩
  intro s t t'' hT hT''
  have hs : s < T'.length := by
    rw [h1.1]
    exact (List.getElem?_eq_some.mp hT).1
  have hmid : T'[s]? = some T'[s] := List.getElem?_eq_getElem hs
  exact tgtEvolves_trans (h1.2 s t T'[s] hT hmid) (h2.2 s T'[s] t'' hmid hT'')

/-- Updating one entry of the target list with an evolved tensor is an
evolution of the whole list. -/
theorem tsEvolves_set {T : List Tgt} {s : ℕ} {t t2 : Tgt}
    (hT : T[s]? = some t) (h : TgtEvolves t t2) : TsEvolves T (T.set s t2) := by
  have hs : s < T.length := (List.getElem?_eq_some.mp hT).1
  refine ⟨List.length_set .., ?_⟩
  intro s' u u' hu hu'
  by_cases hss : s' = s
  · subst hss
    rw [hT] at hu; cases hu
    rw [List.getElem?_set_eq_of_lt _ hs] at hu'
    cases hu'
    exact h
  · rw [List.getElem?_set_ne (by omega)] at hu'
    rw [hu] at hu'; cases hu'
    exact tgtEvolves_refl _

/-- A `setCell` guarded by `obj = 0`, writing obj `1` or `-1`, evolves. -/
theorem tgtEvolves_setCell {t : Tgt} {ra ri rj : ℕ} {c : TCell}
    (h0 : (t.data ra ri rj).obj = 0) (hc : c.obj = 1 ∨ c.obj = -1) :
    TgtEvolves t (t.setCell ra ri rj c) := by
  refine ⟨rfl, rfl, ?_⟩
  intro a i j
  simp only [Tgt.setCell]
  split
  · rename_i hx
    obtain ⟨rfl, rfl, rfl⟩ := hx
    exact Or.inr ⟨h0, hc⟩
  · exact cellEvolves_refl _

/-- One candidate step evolves the target list. -/
theorem processAnchor_evolves {d : YOLODataset} {b : Box} {ious : List ℚ}
    {st st' : List Tgt × List Bool} {anchorIdx : ℕ}
    (hrun : processAnchor d b ious st anchorIdx = some st') :
    TsEvolves st.1 st'.1 := by
  by_cases hnz : d.numAnchorsPerScale = 0
  · unfold processAnchor at hrun
    rw [if_pos hnz] at hrun
    cases hrun
  unfold processAnchor at hrun
  rw [if_neg hnz] at hrun
  cases hS : d.S[anchorIdx / d.numAnchorsPerScale]? with
  | none => simp only [hS] at hrun; cases hrun
  | some S =>
  simp only [hS] at hrun
  cases htgt : st.1[anchorIdx / d.numAnchorsPerScale]? with
  | none => simp only [htgt] at hrun; cases hrun
  | some tgt =>
  simp only [htgt] at hrun
  cases hra : idxA tgt.napc ((anchorIdx % d.numAnchorsPerScale : ℕ) : ℤ) with
  | none => simp only [hra] at hrun; cases hrun
  | some ra =>
  simp only [hra] at hrun
  cases hri : idxA tgt.S (cellI S b) with
  | none => simp only [hri] at hrun; cases hrun
  | some ri =>
  simp only [hri] at hrun
  cases hrj : idxA tgt.S (cellJ S b) with
  | none => simp only [hrj] at hrun; cases hrun
  | some rj =>
  simp only [hrj] at hrun
  by_cases h0 : (tgt.data ra ri rj).obj = 0
  · rw [if_pos h0] at hrun
    cases hha : st.2[anchorIdx / d.numAnchorsPerScale]? with
    | none => simp only [hha] at hrun; cases hrun
    | some ha =>
    simp only [hha] at hrun
    by_cases hfa : ha = false
    · rw [if_pos hfa] at hrun
      cases hrun
      exact tsEvolves_set htgt (tgtEvolves_setCell h0 (Or.inl rfl))
    · rw [if_neg hfa] at hrun
      cases hiou : ious[anchorIdx]? with
      | none => simp only [hiou] at hrun; cases hrun
      | some iouV =>
      simp only [hiou] at hrun
      by_cases hth : d.ignoreIouThresh < iouV
      · rw [if_pos hth] at hrun
        cases hrun
        exact tsEvolves_set htgt (tgtEvolves_setCell h0 (Or.inr rfl))
      · rw [if_neg hth] at hrun
        cases hrun
        exact tsEvolves_refl _
  · rw [if_neg h0] at hrun
    cases hrun
    exact tsEvolves_refl _

/-- The candidate fold evolves the target list. -/
theorem foldAnchors_evolves {d : YOLODataset} {b : Box} {ious : List ℚ} :
    ∀ (cands : List ℕ) (st st' : List Tgt × List Bool),
      cands.foldlM (processAnchor d b ious) st = some st' →
      TsEvolves st.1 st'.1 := by
  intro cands
  induction cands with
  | nil =>
    intro st st' hrun
    simp only [List.foldlM_nil] at hrun
    cases hrun
    exact tsEvolves_refl _
  | cons γ rest ih =>
    intro st st' hrun
    rw [List.foldlM_cons] at hrun
    cases h1 : processAnchor d b ious st γ with
    | none => rw [h1] at hrun; exact absurd hrun (by simp)
    | some st1 =>
      rw [h1] at hrun
      simp only [Option.bind_eq_bind, Option.some_bind] at hrun
      exact tsEvolves_trans (processAnchor_evolves h1) (ih st1 st' hrun)

/-- Processing one box evolves the target list. -/
theorem processBox_evolves {d : YOLODataset} {T T' : List Tgt} {b : Box}
    (hrun : processBox d T b = some T') : TsEvolves T T' := by
  simp only [processBox] at hrun
  cases h1 : (argsortDesc (iousOf d b)).foldlM (processAnchor d b (iousOf d b))
      (T, List.replicate 3 false) with
  | none =>
    rw [h1] at hrun
    simp only [Option.bind_eq_bind, Option.none_bind] at hrun
    cases hrun
  | some st =>
    rw [h1] at hrun
    simp only [Option.bind_eq_bind, Option.some_bind, Option.some_inj] at hrun
    subst hrun
    exact foldAnchors_evolves _ _ _ h1

/-- Folding the per-box encoder over a box list evolves the target list. -/
theorem foldBoxes_evolves {d : YOLODataset} :
    ∀ (bs : List Box) (T T' : List Tgt),
      bs.foldlM (processBox d) T = some T' → TsEvolves T T' := by
  intro bs
  induction bs with
  | nil =>
    intro T T' hrun
    simp only [List.foldlM_nil] at hrun
    cases hrun
    exact tsEvolves_refl _
  | cons bx rest ih =>
    intro T T' hrun
    rw [List.foldlM_cons] at hrun
    cases h1 : processBox d T bx with
    | none => rw [h1] at hrun; exact absurd hrun (by simp)
    | some T1 =>
      rw [h1] at hrun
      simp only [Option.bind_eq_bind, Option.some_bind] at hrun
      exact tsEvolves_trans (processBox_evolves h1) (ih T1 T' hrun)

/-- Claim C2: over any run of the per-box encoder fold, a slot whose
objectness is `1` is never modified by later-processed boxes (its whole
cell, payload included, is preserved — in particular it is never downgraded
to `-1`), and a slot that ends at `-1` was previously `0` or `-1`, never
`1`: only unclaimed slots are downgraded by the ignore branch. -/
theorem claim2_positive_slots_frozen (d : YOLODataset) (T : List Tgt)
    (bs : List Box) (T' : List Tgt)
    (hrun : bs.foldlM (processBox d) T = some T') :
    ∀ (s : ℕ) (t t' : Tgt), T[s]? = some t → T'[s]? = some t' →
      ∀ a i j : ℕ,
        ((t.data a i j).obj = 1 → t'.data a i j = t.data a i j) ∧
        ((t'.data a i j).obj = -1 →
          (t.data a i j).obj = 0 ∨ (t.data a i j).obj = -1) := by
  intro s t t' ht ht' a i j
  rcases (foldBoxes_evolves bs T T' hrun).2 s t t' ht ht' with ⟨-, -, hev⟩
  rcases hev a i j with heq | ⟨h0, h1⟩
  · exact ⟨fun _ => heq, fun hm => by rw [heq] at hm; exact Or.inr hm⟩
  · refine ⟨fun h1' => absurd (h1' ▸ h0) (by norm_num), fun _ => Or.inl h0⟩

/-- A tiny concrete configuration: one anchor per scale, `2 × 2` grids. -/
def exD1 : YOLODataset :=
  { imageSize := 416
    S := [2, 2, 2]
    anchors := [(1, 1), (1, 1), (1, 1)]
    numAnchors := 3
    numAnchorsPerScale := 1
    ignoreIouThresh := 1 / 2 }

/-- A concrete positive cell planted by an (imagined) earlier box. -/
def exCPos : TCell := ⟨1, 1 / 2, 1 / 2, 9, 9, 5⟩

/-- A zero target tensor for a `2 × 2` grid with one anchor. -/
def exT0 : Tgt := ⟨1, 2, fun _ _ _ => TCell.zero⟩

/-- The zero tensor with `exCPos` planted at slot `(0, 1, 1)`. -/
def exTP : Tgt := exT0.setCell 0 1 1 exCPos

/-- A box centered at `(1/2, 1/2)` with full width/height. -/
def exBx : Box := ⟨1 / 2, 1 / 2, 1, 1, 0⟩

/-- Claim C2, witness: encoding `exBx` from a state whose scale-0 slot
`(0, 1, 1)` is already positive succeeds and leaves that cell untouched. -/
theorem claim2_witness :
    ∃ T' : List Tgt,
      [exBx].foldlM (processBox exD1) [exTP, exT0, exT0] = some T' ∧
      ∀ t' : Tgt, T'[0]? = some t' → t'.data 0 1 1 = exCPos := by
  have hsome : ([exBx].foldlM (processBox exD1) [exTP, exT0, exT0]).isSome = true := by
    with_unfolding_all rfl
  refine ⟨Option.get _ hsome, (Option.some_get hsome).symm, ?_⟩
  intro t' ht'
  have h := claim2_positive_slots_frozen exD1 [exTP, exT0, exT0] [exBx] _
    (Option.some_get hsome).symm 0 exTP t' (by with_unfolding_all rfl) ht' 0 1 1
  have h1 := h.1 (by with_unfolding_all rfl)
  rw [h1]
  with_unfolding_all rfl

/-! ## Helper lemmas for the encoder analysis -/

theorem Tgt.setCell_napc (t : Tgt) (ra ri rj : ℕ) (c : TCell) :
    (t.setCell ra ri rj c).napc = t.napc := rfl

theorem Tgt.setCell_S (t : Tgt) (ra ri rj : ℕ) (c : TCell) :
    (t.setCell ra ri rj c).S = t.S := rfl

theorem Tgt.setCell_same (t : Tgt) (ra ri rj : ℕ) (c : TCell) :
    (t.setCell ra ri rj c).data ra ri rj = c := by
  simp [Tgt.setCell]

theorem Tgt.setCell_ne {t : Tgt} {ra ri rj a i j : ℕ} {c : TCell}
    (h : ¬(a = ra ∧ i = ri ∧ j = rj)) :
    (t.setCell ra ri rj c).data a i j = t.data a i j := by
  simp only [Tgt.setCell]
  rw [if_neg h]

theorem idxA_natCast {n a : ℕ} (h : a < n) : idxA n (a : ℤ) = some a := by
  unfold idxA
  rw [if_pos ⟨Int.natCast_nonneg a, by exact_mod_cast h⟩]
  simp

theorem idxA_pos {n : ℕ} {i : ℤ} {r : ℕ} (h : idxA n i = some r) : 0 < n := by
  by_contra hn
  push_neg at hn
  interval_cases n
  unfold idxA at h
  rw [if_neg (by omega), if_neg (by omega)] at h
  cases h

theorem idxA_ge_none {n : ℕ} {i : ℤ} (h : (n : ℤ) ≤ i) : idxA n i = none := by
  unfold idxA
  rw [if_neg (by omega), if_neg (by omega)]

theorem pyInt_of_nonneg {q : ℚ} (h : 0 ≤ q) : pyInt q = ⌊q⌋ := if_pos h

theorem pyInt_intCast (c : ℤ) : pyInt (c : ℚ) = c := by
  unfold pyInt
  split
  · exact Int.floor_intCast c
  · have h : (-(c : ℚ)) = ((-c : ℤ) : ℚ) := by push_cast; ring
    rw [h, Int.floor_intCast, neg_neg]

theorem pyInt_natCast (S : ℕ) : pyInt ((S : ℕ) : ℚ) = (S : ℤ) := by
  have h : ((S : ℕ) : ℚ) = ((S : ℤ) : ℚ) := by push_cast; ring
  rw [h, pyInt_intCast]

/-- With `0 ≤ x < 1` the column index is the floor and lies inside the grid. -/
theorem cellJ_bounds {S : ℕ} {b : Box} (hS : 0 < S) (h0 : 0 ≤ b.x) (h1 : b.x < 1) :
    0 ≤ cellJ S b ∧ cellJ S b < (S : ℤ) := by
  unfold cellJ
  rw [pyInt_of_nonneg (by positivity)]
  constructor
  · exact Int.floor_nonneg.mpr (by positivity)
  · rw [Int.floor_lt]
    push_cast
    nlinarith [(show (0:ℚ) < (S:ℚ) by exact_mod_cast hS)]

theorem cellI_bounds {S : ℕ} {b : Box} (hS : 0 < S) (h0 : 0 ≤ b.y) (h1 : b.y < 1) :
    0 ≤ cellI S b ∧ cellI S b < (S : ℤ) := by
  unfold cellI
  rw [pyInt_of_nonneg (by positivity)]
  constructor
  · exact Int.floor_nonneg.mpr (by positivity)
  · rw [Int.floor_lt]
    push_cast
    nlinarith [(show (0:ℚ) < (S:ℚ) by exact_mod_cast hS)]

/-- The similarity of anchor index `α` for box `b` (getD-view of `iousOf`). -/
def iouAt (d : YOLODataset) (b : Box) (α : ℕ) : ℚ :=
  (iousOf d b).getD α 0

theorem iousOf_length (d : YOLODataset) (b : Box) :
    (iousOf d b).length = d.anchors.length := by
  unfold iousOf
  exact List.length_map ..

/-- Extract per-scale dimension facts from `TgtsMatch`. -/
theorem tgtsMatch_get {d : YOLODataset} {T : List Tgt} (hTm : TgtsMatch d T)
    {s : ℕ} (hs : s < 3) :
    ∃ t0 S, T[s]? = some t0 ∧ d.S[s]? = some S ∧
      t0.napc = d.numAnchorsPerScale ∧ t0.S = S := by
  have hmatch : tgtMatchAt d T s := by
    interval_cases s
    · exact hTm.2.1
    · exact hTm.2.2.1
    · exact hTm.2.2.2
  obtain ⟨h1, h2⟩ := hmatch
  cases ht : T[s]? with
  | none => rw [ht] at h1; cases h1
  | some t0 =>
    rw [ht] at h1 h2
    simp only [Option.map_some'] at h1 h2
    exact ⟨t0, t0.S, rfl, h2.symm, Option.some_inj.mp h1, rfl⟩

/-- `TgtsMatch` is preserved by a dimension-preserving `List.set`. -/
theorem tgtMatchAt_set {d : YOLODataset} {L : List Tgt} {s : ℕ} {t t2 : Tgt} {k : ℕ}
    (hm : tgtMatchAt d L k) (ht : L[s]? = some t)
    (hn : t2.napc = t.napc) (hS : t2.S = t.S) : tgtMatchAt d (L.set s t2) k := by
  have hslen : s < L.length := (List.getElem?_eq_some.mp ht).1
  obtain ⟨h1, h2⟩ := hm
  by_cases hks : k = s
  · subst hks
    rw [ht] at h1 h2
    constructor
    · rw [List.getElem?_set_eq_of_lt _ hslen]
      simpa [hn] using h1
    · rw [List.getElem?_set_eq_of_lt _ hslen]
      simpa [hS] using h2
  · constructor
    · rw [List.getElem?_set_ne (by omega)]
      exact h1
    · rw [List.getElem?_set_ne (by omega)]
      exact h2

theorem tgtsMatch_set {d : YOLODataset} {L : List Tgt} {s : ℕ} {t t2 : Tgt}
    (hm : TgtsMatch d L) (ht : L[s]? = some t)
    (hn : t2.napc = t.napc) (hS : t2.S = t.S) : TgtsMatch d (L.set s t2) := by
  refine ⟨by rw [List.length_set]; exact hm.1, ?_, ?_, ?_⟩
  · exact tgtMatchAt_set hm.2.1 ht hn hS
  · exact tgtMatchAt_set hm.2.2.1 ht hn hS
  · exact tgtMatchAt_set hm.2.2.2 ht hn hS

/-- `buildTargets` produces tensors whose dimensions match the config. -/
theorem buildTargets_match {d : YOLODataset} (hwf : d.WellFormed) :
    TgtsMatch d (buildTargets d) := by
  obtain ⟨-, hna, -, -, hS3, -⟩ := hwf
  have hlen : (buildTargets d).length = 3 := by
    unfold buildTargets
    rw [List.length_map]
    exact hS3
  have hAt : ∀ k : ℕ, k < 3 → tgtMatchAt d (buildTargets d) k := by
    intro k hk3
    unfold tgtMatchAt buildTargets
    rw [List.getElem?_map]
    cases hk : d.S[k]? with
    | none =>
      rw [List.getElem?_eq_none_iff] at hk
      omega
    | some Sk => simp [hna]
  exact ⟨hlen, hAt 0 (by omega), hAt 1 (by omega), hAt 2 (by omega)⟩

/-! ## The greedy-claim invariant (towards claims C1, C3, C6)

During a single box's candidate fold, each scale is in one of two states:
not yet claimed by this box (`has_anchor` false, tensor untouched, every
already-examined candidate of this scale found its slot taken), or claimed
(`has_anchor` true) by the first examined candidate whose slot was
unclaimed, with only ignore-writes to other anchors of the box's cell
afterwards. -/

/-- Per-scale invariant.  `T` is the target list at the start of the box,
`done` the processed candidate prefix, `st` the current state. -/
def ScaleInv (d : YOLODataset) (b : Box) (T : List Tgt) (done : List ℕ)
    (st : List Tgt × List Bool) (s : ℕ) : Prop :=
  ∀ t0 S : _, T[s]? = some t0 → d.S[s]? = some S →
  ∃ t ha, st.1[s]? = some t ∧ st.2[s]? = some ha ∧
    t.napc = t0.napc ∧ t.S = t0.S ∧
    ((ha = false ∧ t = t0 ∧
       (∀ β ∈ done, β / d.numAnchorsPerScale = s →
         ∀ ri rj : ℕ, idxA t0.S (cellI S b) = some ri →
           idxA t0.S (cellJ S b) = some rj →
           (t0.data (β % d.numAnchorsPerScale) ri rj).obj ≠ 0)) ∨
     (ha = true ∧
       ∃ α ri rj : ℕ, α ∈ done ∧ α / d.numAnchorsPerScale = s ∧
         idxA t0.S (cellI S b) = some ri ∧ idxA t0.S (cellJ S b) = some rj ∧
         (t0.data (α % d.numAnchorsPerScale) ri rj).obj = 0 ∧
         t.data (α % d.numAnchorsPerScale) ri rj = payloadCell S b ∧
         (∀ β ∈ done, β / d.numAnchorsPerScale = s →
           (t0.data (β % d.numAnchorsPerScale) ri rj).obj = 0 →
           iouAt d b β ≤ iouAt d b α) ∧
         (∀ a i j : ℕ, ¬(i = ri ∧ j = rj) → t.data a i j = t0.data a i j) ∧
         (∀ a : ℕ, (t.data a ri rj).obj = 0 → t.data a ri rj = t0.data a ri rj) ∧
         (∀ a : ℕ, a ≠ α % d.numAnchorsPerScale →
           (t.data a ri rj).obj = 1 → (t0.data a ri rj).obj = 1)))

/-- Whole-state invariant during a single box's candidate fold. -/
def StateInv (d : YOLODataset) (b : Box) (T : List Tgt) (done : List ℕ)
    (st : List Tgt × List Bool) : Prop :=
  st.1.length = 3 ∧ st.2.length = 3 ∧ ∀ s : ℕ, s < 3 → ScaleInv d b T done st s

theorem payloadCell_obj (S : ℕ) (b : Box) : (payloadCell S b).obj = 1 := rfl

theorem mem_append_singleton {done : List ℕ} {γ β : ℕ} (h : β ∈ done ++ [γ]) :
    β ∈ done ∨ β = γ := by
  rcases List.mem_append.mp h with h | h
  · exact Or.inl h
  · exact Or.inr (List.mem_singleton.mp h)

theorem mod_ne_of_div_eq {napc α γ : ℕ} (hne : α ≠ γ)
    (hdiv : α / napc = γ / napc) : α % napc ≠ γ % napc := by
  intro hmod
  apply hne
  have h1 := Nat.div_add_mod α napc
  have h2 := Nat.div_add_mod γ napc
  rw [← h1, hdiv, hmod, h2]

/-- Extending the processed prefix with a candidate of a different scale
preserves a scale's invariant (for an unchanged per-scale state). -/
theorem scaleInv_extend_ne {d : YOLODataset} {b : Box} {T : List Tgt}
    {done : List ℕ} {st : List Tgt × List Bool} {s : ℕ} {γ : ℕ}
    (hinv : ScaleInv d b T done st s) (hne : γ / d.numAnchorsPerScale ≠ s) :
    ScaleInv d b T (done ++ [γ]) st s := by
  intro t0 S ht0 hS
  obtain ⟨t, ha, h1, h2, h3, h4, hbr⟩ := hinv t0 S ht0 hS
  refine ⟨t, ha, h1, h2, h3, h4, ?_⟩
  rcases hbr with ⟨hf, ht, hnone⟩ | ⟨htr, α, ri, rj, hα, hαs, hri, hrj, hav, hpay, hopt, hoth, hz, hnp⟩
  · refine Or.inl ⟨hf, ht, ?_⟩
    intro β hβ hβs
    rcases mem_append_singleton hβ with hβd | rfl
    · exact hnone β hβd hβs
    · exact absurd hβs hne
  · refine Or.inr ⟨htr, α, ri, rj, List.mem_append_left _ hα, hαs, hri, hrj, hav, hpay, ?_, hoth, hz, hnp⟩
    intro β hβ hβs
    rcases mem_append_singleton hβ with hβd | rfl
    · exact hopt β hβd hβs
    · exact absurd hβs hne

theorem iousOf_getElem? {d : YOLODataset} {b : Box} {γ : ℕ}
    (hγ : γ < d.anchors.length) :
    (iousOf d b)[γ]? = some (iouAt d b γ) := by
  have hγl : γ < (iousOf d b).length := by rw [iousOf_length]; exact hγ
  rw [List.getElem?_eq_getElem hγl]
  unfold iouAt
  rw [List.getD_eq_getElem?_getD, List.getElem?_eq_getElem hγl]
  rfl

/-- The key one-candidate step: processing candidate `γ` (whose similarity
is no larger than any already-processed candidate's) preserves the greedy
invariant. -/
theorem processAnchor_step_inv {d : YOLODataset} {b : Box} {T : List Tgt}
    (hwf : d.WellFormed) (hTm : TgtsMatch d T)
    {done : List ℕ} {st st' : List Tgt × List Bool} {γ : ℕ}
    (hγ : γ < d.anchors.length) (hγd : γ ∉ done)
    (hbest : ∀ x ∈ done, iouAt d b γ ≤ iouAt d b x)
    (hinv : StateInv d b T done st)
    (hrun : processAnchor d b (iousOf d b) st γ = some st') :
    StateInv d b T (done ++ [γ]) st' := by
  obtain ⟨hna, hna2, hn3, hnz, hS3, hSpos⟩ := hwf
  obtain ⟨hl1, hl2, hsc⟩ := hinv
  have hnz' : d.numAnchorsPerScale ≠ 0 := by omega
  have hγ3 : γ < 3 * d.numAnchorsPerScale := by omega
  have hs3 : γ / d.numAnchorsPerScale < 3 :=
    (Nat.div_lt_iff_lt_mul (by omega)).mpr hγ3
  obtain ⟨t0, S, ht0, hSlk, ht0napc, ht0S⟩ := tgtsMatch_get hTm hs3
  obtain ⟨t, ha, htlk, halk, htnapc, htS, hbr⟩ :=
    hsc (γ / d.numAnchorsPerScale) hs3 t0 S ht0 hSlk
  have hiouγ := iousOf_getElem? (d := d) (b := b) hγ
  unfold processAnchor at hrun
  rw [if_neg hnz'] at hrun
  simp only [hSlk, htlk] at hrun
  have hra : idxA t.napc ((γ % d.numAnchorsPerScale : ℕ) : ℤ) =
      some (γ % d.numAnchorsPerScale) := by
    rw [htnapc, ht0napc]
    exact idxA_natCast (Nat.mod_lt _ (by omega))
  simp only [hra] at hrun
  cases hri : idxA t.S (cellI S b) with
  | none => simp only [hri] at hrun; cases hrun
  | some ri =>
  simp only [hri] at hrun
  cases hrj : idxA t.S (cellJ S b) with
  | none => simp only [hrj] at hrun; cases hrun
  | some rj =>
  simp only [hrj] at hrun
  simp only [halk, hiouγ] at hrun
  have hriT : idxA t0.S (cellI S b) = some ri := by rw [← htS]; exact hri
  have hrjT : idxA t0.S (cellJ S b) = some rj := by rw [← htS]; exact hrj
  by_cases h0 : (t.data (γ % d.numAnchorsPerScale) ri rj).obj = 0
  · rw [if_pos h0] at hrun
    by_cases haf : ha = false
    · -- the claim branch fires
      rw [if_pos haf] at hrun
      cases hrun
      rcases hbr with ⟨-, rfl, hnone⟩ | ⟨hat, -⟩
      swap
      · rw [haf] at hat; cases hat
      refine ⟨by rw [List.length_set]; exact hl1,
        by rw [List.length_set]; exact hl2, ?_⟩
      intro s' hs'
      by_cases hss : s' = γ / d.numAnchorsPerScale
      · subst hss
        intro t0' S' ht0' hS'
        rw [ht0] at ht0'; cases ht0'
        rw [hSlk] at hS'; cases hS'
        refine ⟨_, true, List.getElem?_set_eq_of_lt _ (by omega),
          List.getElem?_set_eq_of_lt _ (by omega),
          by rw [Tgt.setCell_napc], by rw [Tgt.setCell_S], ?_⟩
        refine Or.inr ⟨rfl, γ, ri, rj,
          List.mem_append_right _ (List.mem_singleton_self _),
          rfl, hriT, hrjT, h0, Tgt.setCell_same .., ?_, ?_, ?_, ?_⟩
        · intro β hβ hβs hβav
          rcases mem_append_singleton hβ with hβd | rfl
          · exact absurd hβav (hnone β hβd hβs ri rj hriT hrjT)
          · exact le_refl _
        · intro a i j hij
          exact Tgt.setCell_ne (fun hx => hij ⟨hx.2.1, hx.2.2⟩)
        · intro a hobj
          by_cases hag : a = γ % d.numAnchorsPerScale
          · subst hag
            rw [Tgt.setCell_same] at hobj
            exact absurd hobj (by norm_num [payloadCell])
          · exact Tgt.setCell_ne (fun hx => hag hx.1)
        · intro a hag hobj
          rw [Tgt.setCell_ne (fun hx => hag hx.1)] at hobj
          exact hobj
      · intro t0' S' ht0' hS'
        obtain ⟨t'', ha'', k1, k2, k3, k4, kbr⟩ :=
          scaleInv_extend_ne (hsc s' hs') (fun h => hss h.symm) t0' S' ht0' hS'
        exact ⟨t'', ha'', by rw [List.getElem?_set_ne (by omega)]; exact k1,
          by rw [List.getElem?_set_ne (by omega)]; exact k2, k3, k4, kbr⟩
    · -- has_anchor is already set for this scale
      rw [if_neg haf] at hrun
      have hat : ha = true := by
        cases ha
        · exact absurd rfl haf
        · rfl
      rcases hbr with ⟨hfa, -, -⟩ |
        ⟨-, α, riC, rjC, hα, hαs, hriC, hrjC, hav, hpay, hopt, hoth, hz, hnp⟩
      · rw [hfa] at haf; exact absurd rfl haf
      obtain rfl : ri = riC := Option.some_inj.mp (hriT.symm.trans hriC)
      obtain rfl : rj = rjC := Option.some_inj.mp (hrjT.symm.trans hrjC)
      have hαγ : α ≠ γ := fun he => hγd (he ▸ hα)
      have hmodne : α % d.numAnchorsPerScale ≠ γ % d.numAnchorsPerScale :=
        mod_ne_of_div_eq hαγ hαs
      by_cases hth : d.ignoreIouThresh < iouAt d b γ
      · -- the ignore branch fires
        rw [if_pos hth] at hrun
        cases hrun
        refine ⟨by rw [List.length_set]; exact hl1, hl2, ?_⟩
        intro s' hs'
        by_cases hss : s' = γ / d.numAnchorsPerScale
        · subst hss
          intro t0' S' ht0' hS'
          rw [ht0] at ht0'; cases ht0'
          rw [hSlk] at hS'; cases hS'
          refine ⟨_, ha, List.getElem?_set_eq_of_lt _ (by omega), halk,
            by rw [Tgt.setCell_napc]; exact htnapc,
            by rw [Tgt.setCell_S]; exact htS, ?_⟩
          refine Or.inr ⟨hat, α, ri, rj, List.mem_append_left _ hα, hαs,
            hriT, hrjT, hav, ?_, ?_, ?_, ?_, ?_⟩
          · rw [Tgt.setCell_ne (fun hx => hmodne hx.1)]
            exact hpay
          · intro β hβ hβs hβav
            rcases mem_append_singleton hβ with hβd | rfl
            · exact hopt β hβd hβs hβav
            · exact hbest α hα
          · intro a i j hij
            rw [Tgt.setCell_ne (fun hx => hij ⟨hx.2.1, hx.2.2⟩)]
            exact hoth a i j hij
          · intro a hobj
            by_cases hag : a = γ % d.numAnchorsPerScale
            · subst hag
              rw [Tgt.setCell_same] at hobj
              norm_num at hobj
            · rw [Tgt.setCell_ne (fun hx => hag hx.1)] at hobj ⊢
              exact hz a hobj
          · intro a hag hobj
            by_cases hag2 : a = γ % d.numAnchorsPerScale
            · subst hag2
              rw [Tgt.setCell_same] at hobj
              norm_num at hobj
            · rw [Tgt.setCell_ne (fun hx => hag2 hx.1)] at hobj
              exact hnp a hag hobj
        · intro t0' S' ht0' hS'
          obtain ⟨t'', ha'', k1, k2, k3, k4, kbr⟩ :=
            scaleInv_extend_ne (hsc s' hs') (fun h => hss h.symm) t0' S' ht0' hS'
          exact ⟨t'', ha'', by rw [List.getElem?_set_ne (by omega)]; exact k1,
            k2, k3, k4, kbr⟩
      · -- below the ignore threshold: no write
        rw [if_neg hth] at hrun
        cases hrun
        refine ⟨hl1, hl2, ?_⟩
        intro s' hs'
        by_cases hss : s' = γ / d.numAnchorsPerScale
        · subst hss
          intro t0' S' ht0' hS'
          rw [ht0] at ht0'; cases ht0'
          rw [hSlk] at hS'; cases hS'
          refine ⟨t, ha, htlk, halk, htnapc, htS, ?_⟩
          refine Or.inr ⟨hat, α, ri, rj, List.mem_append_left _ hα, hαs,
            hriT, hrjT, hav, hpay, ?_, hoth, hz, hnp⟩
          intro β hβ hβs hβav
          rcases mem_append_singleton hβ with hβd | rfl
          · exact hopt β hβd hβs hβav
          · exact hbest α hα
        · exact scaleInv_extend_ne (hsc s' hs') (fun h => hss h.symm)
  · -- slot already taken: no write
    rw [if_neg h0] at hrun
    cases hrun
    refine ⟨hl1, hl2, ?_⟩
    intro s' hs'
    by_cases hss : s' = γ / d.numAnchorsPerScale
    · subst hss
      intro t0' S' ht0' hS'
      rw [ht0] at ht0'; cases ht0'
      rw [hSlk] at hS'; cases hS'
      refine ⟨t, ha, htlk, halk, htnapc, htS, ?_⟩
      rcases hbr with ⟨hfa, hteq, hnone⟩ |
        ⟨hat, α, riC, rjC, hα, hαs, hriC, hrjC, hav, hpay, hopt, hoth, hz, hnp⟩
      · refine Or.inl ⟨hfa, hteq, ?_⟩
        intro β hβ hβs riX rjX hriX hrjX
        rcases mem_append_singleton hβ with hβd | rfl
        · exact hnone β hβd hβs riX rjX hriX hrjX
        · obtain rfl : ri = riX := Option.some_inj.mp (hriT.symm.trans hriX)
          obtain rfl : rj = rjX := Option.some_inj.mp (hrjT.symm.trans hrjX)
          exact fun hc => h0 (by rw [hteq]; exact hc)
      · refine Or.inr ⟨hat, α, riC, rjC, List.mem_append_left _ hα, hαs,
          hriC, hrjC, hav, hpay, ?_, hoth, hz, hnp⟩
        intro β hβ hβs hβav
        rcases mem_append_singleton hβ with hβd | rfl
        · exact hopt β hβd hβs hβav
        · exact hbest α hα
    · exact scaleInv_extend_ne (hsc s' hs') (fun h => hss h.symm)

theorem mem_of_getElem?_some {l : List ℕ} {n : ℕ} {a : ℕ} (h : l[n]? = some a) :
    a ∈ l := by
  obtain ⟨hlt, rfl⟩ := List.getElem?_eq_some.mp h
  exact List.getElem_mem hlt

/-- The candidate fold preserves the greedy invariant (induction on the
remaining candidates, accumulating the processed prefix). -/
theorem foldAnchors_inv {d : YOLODataset} {b : Box} {T : List Tgt}
    (hwf : d.WellFormed) (hTm : TgtsMatch d T) :
    ∀ (rest done : List ℕ) (st st' : List Tgt × List Bool),
      (∀ γ ∈ rest, γ < d.anchors.length) → rest.Nodup →
      (∀ γ ∈ rest, γ ∉ done) →
      rest.Pairwise (fun x y => iouAt d b y ≤ iouAt d b x) →
      (∀ x ∈ done, ∀ y ∈ rest, iouAt d b y ≤ iouAt d b x) →
      StateInv d b T done st →
      rest.foldlM (processAnchor d b (iousOf d b)) st = some st' →
      StateInv d b T (done ++ rest) st' := by
  intro rest
  induction rest with
  | nil =>
    intro done st st' _ _ _ _ _ hinv hrun
    simp only [List.foldlM_nil] at hrun
    cases hrun
    simpa using hinv
  | cons γ rest ih =>
    intro done st st' hlt hnd hdisj hsort hdr hinv hrun
    rw [List.foldlM_cons] at hrun
    cases h1 : processAnchor d b (iousOf d b) st γ with
    | none =>
      rw [h1] at hrun
      simp only [Option.bind_eq_bind, Option.none_bind] at hrun
      cases hrun
    | some st1 =>
      rw [h1] at hrun
      simp only [Option.bind_eq_bind, Option.some_bind] at hrun
      have hstep := processAnchor_step_inv hwf hTm (hlt γ (by simp))
        (hdisj γ (by simp)) (fun x hx => hdr x hx γ (by simp)) hinv h1
      have harg1 : ∀ y ∈ rest, y ∉ done ++ [γ] := by
        intro y hy hmem
        rcases mem_append_singleton hmem with hyd | rfl
        · exact hdisj y (by simp [hy]) hyd
        · exact (List.nodup_cons.mp hnd).1 hy
      have harg2 : ∀ x ∈ done ++ [γ], ∀ y ∈ rest, iouAt d b y ≤ iouAt d b x := by
        intro x hx y hy
        rcases mem_append_singleton hx with hxd | rfl
        · exact hdr x hxd y (by simp [hy])
        · exact (List.pairwise_cons.mp hsort).1 y hy
      have hres := ih (done ++ [γ]) st1 st' (fun y hy => hlt y (by simp [hy]))
        (List.nodup_cons.mp hnd).2 harg1 (List.pairwise_cons.mp hsort).2 harg2
        hstep hrun
      have heq : (done ++ [γ]) ++ rest = done ++ γ :: rest := by simp
      rw [heq] at hres
      exact hres

/-- Final-state invariant of a full `processBox` run, with `done` the whole
candidate list (a permutation of all anchor indices). -/
theorem processBox_run_inv {d : YOLODataset} {b : Box} {T : List Tgt}
    {T' : List Tgt} (hwf : d.WellFormed) (hTm : TgtsMatch d T)
    (hrun : processBox d T b = some T') :
    ∃ haF : List Bool, StateInv d b T (argsortDesc (iousOf d b)) (T', haF) := by
  simp only [processBox] at hrun
  cases h1 : (argsortDesc (iousOf d b)).foldlM (processAnchor d b (iousOf d b))
      (T, List.replicate 3 false) with
  | none =>
    rw [h1] at hrun
    simp only [Option.bind_eq_bind, Option.none_bind] at hrun
    cases hrun
  | some stf =>
    rw [h1] at hrun
    simp only [Option.bind_eq_bind, Option.some_bind, Option.some_inj] at hrun
    subst hrun
    have hinit : StateInv d b T [] (T, List.replicate 3 false) := by
      refine ⟨hTm.1, by simp, ?_⟩
      intro s hs t0 S ht0 hS
      refine ⟨t0, false, ht0, ?_, rfl, rfl, Or.inl ⟨rfl, rfl, by simp⟩⟩
      rw [List.getElem?_replicate, if_pos hs]
    have hsorted : (argsortDesc (iousOf d b)).Pairwise
        (fun x y => iouAt d b y ≤ iouAt d b x) := argsortDesc_sorted (iousOf d b)
    have hfold := foldAnchors_inv hwf hTm (argsortDesc (iousOf d b)) [] _ stf
      (fun γ hγ => by rw [← iousOf_length d b]; exact (argsortDesc_mem _ γ).mp hγ)
      (argsortDesc_nodup _) (by simp) hsorted (by simp) hinit h1
    exact ⟨stf.2, by simpa using hfold⟩

/-- Claim C1: when a single box is encoded against any pre-state, each scale
receives at most one new positive assignment, and when one is written it
sits at the box's grid cell for an anchor of that scale whose slot was
unclaimed (objectness 0) in the pre-state and whose width-height similarity
is maximal among that scale's anchors with unclaimed slots — so a box whose
better anchors sit in claimed slots falls through to its best remaining
anchor, and a box finding no unclaimed slot adds no positive at that scale. -/
theorem claim1_greedy_best_available (d : YOLODataset) (b : Box)
    (T T' : List Tgt) (hwf : d.WellFormed) (hTm : TgtsMatch d T)
    (hrun : processBox d T b = some T') :
    ∀ s : ℕ, s < 3 → ∀ t0 S t', T[s]? = some t0 → d.S[s]? = some S →
      T'[s]? = some t' →
      (∀ a i j a' i' j' : ℕ,
        (t'.data a i j).obj = 1 → (t0.data a i j).obj ≠ 1 →
        (t'.data a' i' j').obj = 1 → (t0.data a' i' j').obj ≠ 1 →
        (a, i, j) = (a', i', j')) ∧
      (∀ a i j : ℕ, (t'.data a i j).obj = 1 → (t0.data a i j).obj ≠ 1 →
        ∃ α ri rj : ℕ, α < d.anchors.length ∧
          α / d.numAnchorsPerScale = s ∧
          idxA t0.S (cellI S b) = some ri ∧ idxA t0.S (cellJ S b) = some rj ∧
          (a, i, j) = (α % d.numAnchorsPerScale, ri, rj) ∧
          (t0.data (α % d.numAnchorsPerScale) ri rj).obj = 0 ∧
          t'.data (α % d.numAnchorsPerScale) ri rj = payloadCell S b ∧
          ∀ β : ℕ, β < d.anchors.length → β / d.numAnchorsPerScale = s →
            (t0.data (β % d.numAnchorsPerScale) ri rj).obj = 0 →
            iouAt d b β ≤ iouAt d b α) := by
  intro s hs t0 S t' ht0 hS ht'
  obtain ⟨haF, hl1, hl2, hsc⟩ := processBox_run_inv hwf hTm hrun
  obtain ⟨t, ha, htlk, halk, htnapc, htS, hbr⟩ := hsc s hs t0 S ht0 hS
  rw [ht'] at htlk
  obtain rfl : t' = t := Option.some_inj.mp htlk
  rcases hbr with ⟨-, rfl, -⟩ |
    ⟨-, α, ri, rj, hα, hαs, hri, hrj, hav, hpay, hopt, hoth, hz, hnp⟩
  · exact ⟨fun a i j a' i' j' ho1 hn1 _ _ => absurd ho1 hn1,
      fun a i j ho hn => absurd ho hn⟩
  · have key : ∀ a i j : ℕ, (t'.data a i j).obj = 1 → (t0.data a i j).obj ≠ 1 →
        (a, i, j) = (α % d.numAnchorsPerScale, ri, rj) := by
      intro a i j ho hn
      by_cases hij : i = ri ∧ j = rj
      · obtain ⟨rfl, rfl⟩ := hij
        by_cases hag : a = α % d.numAnchorsPerScale
        · rw [hag]
        · exact absurd (hnp a hag ho) hn
      · rw [hoth a i j hij] at ho
        exact absurd ho hn
    constructor
    · intro a i j a' i' j' ho1 hn1 ho2 hn2
      exact (key a i j ho1 hn1).trans (key a' i' j' ho2 hn2).symm
    · intro a i j ho hn
      have hαlt : α < d.anchors.length := by
        rw [← iousOf_length d b]
        exact (argsortDesc_mem _ α).mp hα
      refine ⟨α, ri, rj, hαlt, hαs, hri, hrj, key a i j ho hn, hav, hpay, ?_⟩
      intro β hβlt hβs hβav
      refine hopt β ?_ hβs hβav
      rw [argsortDesc_mem, iousOf_length]
      exact hβlt

/-- Claim C6: every positive assignment written by the encoder for a box
with `x, y ∈ [0,1)`, `w, h > 0` and integral class label carries the payload
`[1, S*x - col, S*y - row, w*S, h*S, class]` with the offsets in `[0,1)`,
strictly positive cell-relative sizes, and the box's class id. -/
theorem claim6_payload_bounds (d : YOLODataset) (b : Box) (c : ℤ)
    (T T' : List Tgt) (hwf : d.WellFormed) (hTm : TgtsMatch d T)
    (hrun : processBox d T b = some T')
    (hx0 : 0 ≤ b.x) (hx1 : b.x < 1) (hy0 : 0 ≤ b.y) (hy1 : b.y < 1)
    (hbw : 0 < b.w) (hbh : 0 < b.h) (hcls : b.cls = (c : ℚ)) :
    ∀ s : ℕ, s < 3 → ∀ t0 S t', T[s]? = some t0 → d.S[s]? = some S →
      T'[s]? = some t' →
    ∀ a i j : ℕ, (t'.data a i j).obj = 1 → (t0.data a i j).obj ≠ 1 →
      t'.data a i j = payloadCell S b ∧
      (t'.data a i j).xc = (S : ℚ) * b.x - (cellJ S b : ℚ) ∧
      (t'.data a i j).yc = (S : ℚ) * b.y - (cellI S b : ℚ) ∧
      0 ≤ (t'.data a i j).xc ∧ (t'.data a i j).xc < 1 ∧
      0 ≤ (t'.data a i j).yc ∧ (t'.data a i j).yc < 1 ∧
      (t'.data a i j).wc = b.w * (S : ℚ) ∧ 0 < (t'.data a i j).wc ∧
      (t'.data a i j).hc = b.h * (S : ℚ) ∧ 0 < (t'.data a i j).hc ∧
      (t'.data a i j).cls = (c : ℚ) := by
  intro s hs t0 S t' ht0 hS ht' a i j ho hn
  have hSmem : S ∈ d.S := by
    obtain ⟨hlt, rfl⟩ := List.getElem?_eq_some.mp hS
    exact List.getElem_mem hlt
  have hSpos : 0 < S := hwf.2.2.2.2.2 S hSmem
  have hSQ : (0 : ℚ) < (S : ℚ) := by exact_mod_cast hSpos
  obtain ⟨haF, hl1, hl2, hsc⟩ := processBox_run_inv hwf hTm hrun
  obtain ⟨t, ha, htlk, halk, htnapc, htS, hbr⟩ := hsc s hs t0 S ht0 hS
  rw [ht'] at htlk
  obtain rfl : t' = t := Option.some_inj.mp htlk
  rcases hbr with ⟨-, rfl, -⟩ |
    ⟨-, α, ri, rj, hα, hαs, hri, hrj, hav, hpay, hopt, hoth, hz, hnp⟩
  · exact absurd ho hn
  · have key : (a, i, j) = (α % d.numAnchorsPerScale, ri, rj) := by
      by_cases hij : i = ri ∧ j = rj
      · obtain ⟨rfl, rfl⟩ := hij
        by_cases hag : a = α % d.numAnchorsPerScale
        · rw [hag]
        · exact absurd (hnp a hag ho) hn
      · rw [hoth a i j hij] at ho
        exact absurd ho hn
    obtain ⟨rfl, rfl, rfl⟩ : a = α % d.numAnchorsPerScale ∧ i = ri ∧ j = rj := by
      have k1 := congrArg Prod.fst key
      have k2 := congrArg (fun p => p.2.1) key
      have k3 := congrArg (fun p => p.2.2) key
      exact ⟨k1, k2, k3⟩
    rw [hpay]
    have hxfl : cellJ S b = ⌊(S : ℚ) * b.x⌋ := pyInt_of_nonneg (by positivity)
    have hyfl : cellI S b = ⌊(S : ℚ) * b.y⌋ := pyInt_of_nonneg (by positivity)
    refine ⟨rfl, rfl, rfl, ?_, ?_, ?_, ?_, rfl, ?_, rfl, ?_, ?_⟩
    · show (0 : ℚ) ≤ (S : ℚ) * b.x - (cellJ S b : ℚ)
      rw [hxfl, Int.self_sub_floor]
      exact Int.fract_nonneg _
    · show (S : ℚ) * b.x - (cellJ S b : ℚ) < 1
      rw [hxfl, Int.self_sub_floor]
      exact Int.fract_lt_one _
    · show (0 : ℚ) ≤ (S : ℚ) * b.y - (cellI S b : ℚ)
      rw [hyfl, Int.self_sub_floor]
      exact Int.fract_nonneg _
    · show (S : ℚ) * b.y - (cellI S b : ℚ) < 1
      rw [hyfl, Int.self_sub_floor]
      exact Int.fract_lt_one _
    · exact mul_pos hbw hSQ
    · exact mul_pos hbh hSQ
    · show (pyInt b.cls : ℚ) = (c : ℚ)
      rw [hcls, pyInt_intCast]

/-- Claim C3 (amended): during a candidate step with all lookups resolved,
the candidate's slot ends at objectness `-1` exactly when the slot was
unclaimed (`obj = 0`), the box's scale HAS ALREADY been assigned an anchor
for this box (`has_anchor` true, the opposite of the spec's "not yet
assigned"), and the similarity exceeds the ignore threshold; a slot that is
not unclaimed is left entirely untouched. -/
theorem claim3_ignore_exactly_when (d : YOLODataset) (b : Box) (ious : List ℚ)
    (st st' : List Tgt × List Bool) (anchorIdx : ℕ)
    (S : ℕ) (tgt tgt' : Tgt) (ra ri rj : ℕ) (ha : Bool) (iouV : ℚ)
    (hnz : d.numAnchorsPerScale ≠ 0)
    (hS : d.S[anchorIdx / d.numAnchorsPerScale]? = some S)
    (htgt : st.1[anchorIdx / d.numAnchorsPerScale]? = some tgt)
    (hra : idxA tgt.napc ((anchorIdx % d.numAnchorsPerScale : ℕ) : ℤ) = some ra)
    (hri : idxA tgt.S (cellI S b) = some ri)
    (hrj : idxA tgt.S (cellJ S b) = some rj)
    (hha : st.2[anchorIdx / d.numAnchorsPerScale]? = some ha)
    (hiou : ious[anchorIdx]? = some iouV)
    (hrun : processAnchor d b ious st anchorIdx = some st')
    (htgt' : st'.1[anchorIdx / d.numAnchorsPerScale]? = some tgt') :
    ((tgt.data ra ri rj).obj = 0 →
      ((tgt'.data ra ri rj).obj = -1 ↔ ha = true ∧ d.ignoreIouThresh < iouV)) ∧
    ((tgt.data ra ri rj).obj ≠ 0 → tgt'.data ra ri rj = tgt.data ra ri rj) := by
  have hlt : anchorIdx / d.numAnchorsPerScale < st.1.length :=
    (List.getElem?_eq_some.mp htgt).1
  unfold processAnchor at hrun
  rw [if_neg hnz] at hrun
  simp only [hS, htgt, hra, hri, hrj, hha, hiou] at hrun
  by_cases h0 : (tgt.data ra ri rj).obj = 0
  · rw [if_pos h0] at hrun
    by_cases haf : ha = false
    · rw [if_pos haf] at hrun
      cases hrun
      rw [List.getElem?_set_eq_of_lt _ hlt] at htgt'
      obtain rfl : tgt' = tgt.setCell ra ri rj (payloadCell S b) :=
        (Option.some_inj.mp htgt').symm
      refine ⟨fun _ => ?_, fun h0' => absurd h0 h0'⟩
      rw [Tgt.setCell_same]
      constructor
      · intro h
        exact absurd h (by norm_num [payloadCell])
      · rintro ⟨hat, -⟩
        rw [haf] at hat
        cases hat
    · rw [if_neg haf] at hrun
      have hat : ha = true := by
        cases ha
        · exact absurd rfl haf
        · rfl
      by_cases hth : d.ignoreIouThresh < iouV
      · rw [if_pos hth] at hrun
        cases hrun
        rw [List.getElem?_set_eq_of_lt _ hlt] at htgt'
        obtain rfl : tgt' = tgt.setCell ra ri rj { tgt.data ra ri rj with obj := -1 } :=
          (Option.some_inj.mp htgt').symm
        refine ⟨fun _ => ?_, fun h0' => absurd h0 h0'⟩
        rw [Tgt.setCell_same]
        exact ⟨fun _ => ⟨hat, hth⟩, fun _ => rfl⟩
      · rw [if_neg hth] at hrun
        cases hrun
        rw [htgt] at htgt'
        obtain rfl : tgt = tgt' := Option.some_inj.mp htgt'
        refine ⟨fun _ => ?_, fun h0' => absurd h0 h0'⟩
        constructor
        · intro hm
          rw [h0] at hm
          norm_num at hm
        · rintro ⟨-, hthv⟩
          exact absurd hthv hth
  · rw [if_neg h0] at hrun
    cases hrun
    rw [htgt] at htgt'
    obtain rfl : tgt = tgt' := Option.some_inj.mp htgt'
    exact ⟨fun hc => absurd hc h0, fun _ => rfl⟩

/-- Claim C3, counterexample: one anchor per scale, box `(1/2,1/2,1,1,0)`,
zero initial state.  Candidate 0's slot `(0,1,1)` at scale 0 is unclaimed,
the scale has not yet been assigned an anchor for this box, and the
similarity `1` exceeds the threshold `1/2` — the original claim then
requires objectness `-1`, but the code claims the slot positively (`1`). -/
theorem claim3_counterexample :
    (iousOf exD1 exBx)[0]? = some 1 ∧
    exD1.ignoreIouThresh < 1 ∧
    (exT0.data 0 1 1).obj = 0 ∧
    (([exT0, exT0, exT0], List.replicate 3 false).2[0]? = some false) ∧
    ((processAnchor exD1 exBx (iousOf exD1 exBx)
        ([exT0, exT0, exT0], List.replicate 3 false) 0).map
      (fun st => ((st.1.getD 0 exT0).data 0 1 1).obj) = some 1) ∧
    ¬ ((processAnchor exD1 exBx (iousOf exD1 exBx)
        ([exT0, exT0, exT0], List.replicate 3 false) 0).map
      (fun st => ((st.1.getD 0 exT0).data 0 1 1).obj) = some (-1)) := by
  have hres : (processAnchor exD1 exBx (iousOf exD1 exBx)
      ([exT0, exT0, exT0], List.replicate 3 false) 0).map
      (fun st => ((st.1.getD 0 exT0).data 0 1 1).obj) = some 1 := by
    with_unfolding_all rfl
  refine ⟨by with_unfolding_all rfl, by norm_num [exD1], by with_unfolding_all rfl,
    by with_unfolding_all rfl, hres, ?_⟩
  rw [hres]
  intro h
  have h1 : (1 : ℚ) = -1 := Option.some_inj.mp h
  norm_num at h1

/-- A two-anchors-per-scale configuration for exercising the ignore branch:
scale 0 has anchors `(1,1)` and `(9/10, 9/10)`. -/
def exD2 : YOLODataset :=
  { imageSize := 416
    S := [2, 2, 2]
    anchors := [(1, 1), (9 / 10, 9 / 10), (1 / 100, 1 / 100), (1 / 100, 1 / 100),
                (1 / 100, 1 / 100), (1 / 100, 1 / 100)]
    numAnchors := 6
    numAnchorsPerScale := 2
    ignoreIouThresh := 1 / 2 }

/-- A zero `2 × 2` target tensor with two anchors. -/
def exTgt2 : Tgt := ⟨2, 2, fun _ _ _ => TCell.zero⟩

/-- A state in which scale 0 already has its anchor for the current box. -/
def exSt2 : List Tgt × List Bool := ([exTgt2, exTgt2, exTgt2], [true, false, false])

/-- Claim C3, witness: with scale 0 already assigned (`has_anchor` true),
candidate 1 (similarity `81/100 > 1/2`, unclaimed slot) is marked `-1` —
instantiating the amended characterization. -/
theorem claim3_witness :
    ∃ st' : List Tgt × List Bool,
      processAnchor exD2 exBx (iousOf exD2 exBx) exSt2 1 = some st' ∧
      ∀ tgt' : Tgt, st'.1[0]? = some tgt' → (tgt'.data 1 1 1).obj = -1 := by
  have hsome : (processAnchor exD2 exBx (iousOf exD2 exBx) exSt2 1).isSome = true := by
    with_unfolding_all rfl
  refine ⟨_, (Option.some_get hsome).symm, ?_⟩
  intro tgt' htgt'
  have h := claim3_ignore_exactly_when exD2 exBx (iousOf exD2 exBx) exSt2 _ 1 2
    exTgt2 tgt' 1 1 1 true (81 / 100)
    (by norm_num [exD2]) (by with_unfolding_all rfl) (by with_unfolding_all rfl)
    (by with_unfolding_all rfl) (by with_unfolding_all rfl) (by with_unfolding_all rfl)
    (by with_unfolding_all rfl) (by with_unfolding_all rfl)
    (Option.some_get hsome).symm htgt'
  exact (h.1 (by with_unfolding_all rfl)).mpr ⟨rfl, by norm_num [exD2]⟩

/-! ## Totality and failure of the encoder (towards claims C9, C10) -/

/-- A candidate step succeeds when the box's center lies in `[0,1) × [0,1)`
and the configuration and state are well-formed, and it preserves the
state's shape. -/
theorem processAnchor_total {d : YOLODataset} {b : Box}
    (hwf : d.WellFormed) {st : List Tgt × List Bool} {γ : ℕ}
    (hγ : γ < d.anchors.length)
    (hTm : TgtsMatch d st.1) (hl2 : st.2.length = 3)
    (hx0 : 0 ≤ b.x) (hx1 : b.x < 1) (hy0 : 0 ≤ b.y) (hy1 : b.y < 1) :
    ∃ st', processAnchor d b (iousOf d b) st γ = some st' ∧
      TgtsMatch d st'.1 ∧ st'.2.length = 3 := by
  obtain ⟨hna, hna2, hn3, hnz, hS3, hSpos⟩ := hwf
  have hnz' : d.numAnchorsPerScale ≠ 0 := by omega
  have hs3 : γ / d.numAnchorsPerScale < 3 :=
    (Nat.div_lt_iff_lt_mul (by omega)).mpr (by omega)
  obtain ⟨t0, S, ht0, hSlk, ht0napc, ht0S⟩ := tgtsMatch_get hTm hs3
  have hSmem : S ∈ d.S := by
    obtain ⟨hlt, rfl⟩ := List.getElem?_eq_some.mp hSlk
    exact List.getElem_mem hlt
  have hSpos' : 0 < S := hSpos S hSmem
  have hra : idxA t0.napc ((γ % d.numAnchorsPerScale : ℕ) : ℤ) =
      some (γ % d.numAnchorsPerScale) := by
    rw [ht0napc]
    exact idxA_natCast (Nat.mod_lt _ (by omega))
  have hri : idxA t0.S (cellI S b) = some (cellI S b).toNat := by
    unfold idxA
    rw [ht0S,
      if_pos ⟨(cellI_bounds hSpos' hy0 hy1).1, (cellI_bounds hSpos' hy0 hy1).2⟩]
  have hrj : idxA t0.S (cellJ S b) = some (cellJ S b).toNat := by
    unfold idxA
    rw [ht0S,
      if_pos ⟨(cellJ_bounds hSpos' hx0 hx1).1, (cellJ_bounds hSpos' hx0 hx1).2⟩]
  have hhaex : ∃ ha, st.2[γ / d.numAnchorsPerScale]? = some ha := by
    cases hh : st.2[γ / d.numAnchorsPerScale]? with
    | none =>
      rw [List.getElem?_eq_none_iff] at hh
      omega
    | some ha => exact ⟨ha, rfl⟩
  obtain ⟨ha, hha⟩ := hhaex
  have hiouγ := iousOf_getElem? (d := d) (b := b) hγ
  unfold processAnchor
  rw [if_neg hnz']
  simp only [hSlk, ht0, hra, hri, hrj, hha, hiouγ]
  by_cases h0 : (t0.data (γ % d.numAnchorsPerScale) (cellI S b).toNat
      (cellJ S b).toNat).obj = 0
  · rw [if_pos h0]
    by_cases haf : ha = false
    · rw [if_pos haf]
      refine ⟨_, rfl, ?_, by rw [List.length_set]; exact hl2⟩
      exact tgtsMatch_set hTm ht0 (Tgt.setCell_napc ..) (Tgt.setCell_S ..)
    · rw [if_neg haf]
      by_cases hth : d.ignoreIouThresh < iouAt d b γ
      · rw [if_pos hth]
        refine ⟨_, rfl, ?_, hl2⟩
        exact tgtsMatch_set hTm ht0 (Tgt.setCell_napc ..) (Tgt.setCell_S ..)
      · rw [if_neg hth]
        exact ⟨st, rfl, hTm, hl2⟩
  · rw [if_neg h0]
    exact ⟨st, rfl, hTm, hl2⟩

/-- Candidate-fold totality under the same conditions. -/
theorem foldAnchors_total {d : YOLODataset} {b : Box} (hwf : d.WellFormed)
    (hx0 : 0 ≤ b.x) (hx1 : b.x < 1) (hy0 : 0 ≤ b.y) (hy1 : b.y < 1) :
    ∀ (cs : List ℕ) (st : List Tgt × List Bool),
      (∀ γ ∈ cs, γ < d.anchors.length) →
      TgtsMatch d st.1 → st.2.length = 3 →
      ∃ st', cs.foldlM (processAnchor d b (iousOf d b)) st = some st' ∧
        TgtsMatch d st'.1 ∧ st'.2.length = 3 := by
  intro cs
  induction cs with
  | nil =>
    intro st _ hTm hl2
    exact ⟨st, by simp, hTm, hl2⟩
  | cons γ rest ih =>
    intro st hlt hTm hl2
    obtain ⟨st1, h1, hTm1, hl21⟩ :=
      processAnchor_total hwf (hlt γ (by simp)) hTm hl2 hx0 hx1 hy0 hy1
    obtain ⟨st', h2, hTm', hl2'⟩ := ih st1 (fun y hy => hlt y (by simp [hy])) hTm1 hl21
    refine ⟨st', ?_, hTm', hl2'⟩
    rw [List.foldlM_cons, h1]
    simpa using h2

/-- `processBox` totality: encoding one in-bounds box always succeeds and
preserves the target-list shape. -/
theorem processBox_total {d : YOLODataset} {b : Box} {T : List Tgt}
    (hwf : d.WellFormed) (hTm : TgtsMatch d T)
    (hx0 : 0 ≤ b.x) (hx1 : b.x < 1) (hy0 : 0 ≤ b.y) (hy1 : b.y < 1) :
    ∃ T', processBox d T b = some T' ∧ TgtsMatch d T' := by
  obtain ⟨st', h1, hTm', -⟩ := foldAnchors_total hwf hx0 hx1 hy0 hy1
    (argsortDesc (iousOf d b)) (T, List.replicate 3 false)
    (fun γ hγ => by rw [← iousOf_length d b]; exact (argsortDesc_mem _ γ).mp hγ)
    hTm (by simp)
  refine ⟨st'.1, ?_, hTm'⟩
  simp only [processBox, h1, Option.bind_eq_bind, Option.some_bind]

/-- Box-fold totality. -/
theorem foldBoxes_total {d : YOLODataset} (hwf : d.WellFormed) :
    ∀ (bs : List Box) (T : List Tgt), TgtsMatch d T →
      (∀ bx ∈ bs, 0 ≤ bx.x ∧ bx.x < 1 ∧ 0 ≤ bx.y ∧ bx.y < 1) →
      ∃ T', bs.foldlM (processBox d) T = some T' ∧ TgtsMatch d T' := by
  intro bs
  induction bs with
  | nil =>
    intro T hTm _
    exact ⟨T, by simp, hTm⟩
  | cons bx rest ih =>
    intro T hTm hbs
    obtain ⟨hx0, hx1, hy0, hy1⟩ := hbs bx (by simp)
    obtain ⟨T1, h1, hTm1⟩ := processBox_total hwf hTm hx0 hx1 hy0 hy1
    obtain ⟨T', h2, hTm'⟩ := ih T1 hTm1 (fun y hy => hbs y (by simp [hy]))
    refine ⟨T', ?_, hTm'⟩
    rw [List.foldlM_cons, h1]
    simpa using h2

/-- A box with `x = 1` or `y = 1` makes `processBox` raise (`none`): the
first sorted candidate's slot resolution computes a cell index equal to the
grid size, out of range. -/
theorem processBox_none_at_boundary {d : YOLODataset} {b : Box} {T : List Tgt}
    (hwf : d.WellFormed) (hTm : TgtsMatch d T)
    (hbx : b.x = 1 ∨ b.y = 1) : processBox d T b = none := by
  obtain ⟨hna, hna2, hn3, hnz, hS3, hSpos⟩ := hwf
  have hlen : 0 < (argsortDesc (iousOf d b)).length := by
    rw [(argsortDesc_perm _).length_eq, List.length_range, iousOf_length]
    omega
  cases hcs : argsortDesc (iousOf d b) with
  | nil => rw [hcs] at hlen; simp at hlen
  | cons γ rest =>
    have hγ : γ < d.anchors.length := by
      rw [← iousOf_length d b]
      exact (argsortDesc_mem _ γ).mp (by rw [hcs]; simp)
    have hnz' : d.numAnchorsPerScale ≠ 0 := by omega
    have hs3 : γ / d.numAnchorsPerScale < 3 :=
      (Nat.div_lt_iff_lt_mul (by omega)).mpr (by omega)
    obtain ⟨t0, S, ht0, hSlk, ht0napc, ht0S⟩ := tgtsMatch_get hTm hs3
    have hra : idxA t0.napc ((γ % d.numAnchorsPerScale : ℕ) : ℤ) =
        some (γ % d.numAnchorsPerScale) := by
      rw [ht0napc]
      exact idxA_natCast (Nat.mod_lt _ (by omega))
    have hstep : processAnchor d b (iousOf d b) (T, List.replicate 3 false) γ = none := by
      unfold processAnchor
      rw [if_neg hnz']
      simp only [hSlk, ht0, hra]
      rcases hbx with hx | hy
      · have hrj : idxA t0.S (cellJ S b) = none := by
          rw [ht0S]
          apply idxA_ge_none
          unfold cellJ
          rw [hx, mul_one, pyInt_natCast]
        cases hri : idxA t0.S (cellI S b) with
        | none => simp only [hri]
        | some ri => simp only [hri, hrj]
      · have hri : idxA t0.S (cellI S b) = none := by
          rw [ht0S]
          apply idxA_ge_none
          unfold cellI
          rw [hy, mul_one, pyInt_natCast]
        simp only [hri]
    simp only [processBox, hcs, List.foldlM_cons, hstep, Option.bind_eq_bind,
      Option.none_bind]

/-- Claim C9: target encoding is total exactly under the box-coordinate
precondition `0 ≤ x < 1 ∧ 0 ≤ y < 1`: in-bounds box lists always encode,
while a box with `x = 1` or `y = 1` — a value the mosaic's inclusive clip
to `[0,1]` does not exclude — computes cell index `int(S*x) = S` (resp.
`int(S*y) = S`), outside the `S × S` grid, and the encoding raises. -/
theorem claim9_totality_boundary (d : YOLODataset) (b : Box) (bs : List Box)
    (hwf : d.WellFormed) :
    ((∀ bx ∈ bs, 0 ≤ bx.x ∧ bx.x < 1 ∧ 0 ≤ bx.y ∧ bx.y < 1) →
      ∃ T', encodeTargets d bs = some T') ∧
    (∀ S : ℕ, b.x = 1 → cellJ S b = (S : ℤ)) ∧
    (∀ S : ℕ, b.y = 1 → cellI S b = (S : ℤ)) ∧
    ((b.x = 1 ∨ b.y = 1) → encodeTargets d (b :: bs) = none) := by
  refine ⟨?_, ?_, ?_, ?_⟩
  · intro hbs
    obtain ⟨T', h, -⟩ := foldBoxes_total hwf bs (buildTargets d)
      (buildTargets_match hwf) hbs
    exact ⟨T', h⟩
  · intro S hx
    unfold cellJ
    rw [hx, mul_one, pyInt_natCast]
  · intro S hy
    unfold cellI
    rw [hy, mul_one, pyInt_natCast]
  · intro hbx
    have h1 : processBox d (buildTargets d) b = none :=
      processBox_none_at_boundary hwf (buildTargets_match hwf) hbx
    unfold encodeTargets
    rw [List.foldlM_cons, h1]
    rfl

/-- If some element of the list makes the step fail regardless of state,
the whole monadic fold fails. -/
theorem foldlM_none_of_mem {α β : Type} {f : α → β → Option α} {l : List β} {x : β}
    (hx : x ∈ l) (hf : ∀ st, f st x = none) : ∀ st, l.foldlM f st = none := by
  induction l with
  | nil => cases hx
  | cons a l ih =>
    intro st
    rw [List.foldlM_cons]
    rcases List.mem_cons.mp hx with rfl | hx'
    · rw [hf st]
      rfl
    · cases hfa : f st a with
      | none => rfl
      | some st1 =>
        simp only [Option.bind_eq_bind, Option.some_bind]
        exact ih hx' st1

/-- A successful candidate step never touches a scale index `≥ 3`. -/
theorem processAnchor_high {d : YOLODataset} {b : Box} {ious : List ℚ}
    {st st' : List Tgt × List Bool} {γ : ℕ}
    (hn3 : d.anchors.length = 3 * d.numAnchorsPerScale)
    (hγ : γ < d.anchors.length)
    (hrun : processAnchor d b ious st γ = some st') :
    ∀ s : ℕ, 3 ≤ s → st'.1[s]? = st.1[s]? := by
  intro s hs
  have hnz' : d.numAnchorsPerScale ≠ 0 := by
    intro h
    rw [processAnchor, if_pos h] at hrun
    cases hrun
  have hs3 : γ / d.numAnchorsPerScale < 3 :=
    (Nat.div_lt_iff_lt_mul (by omega)).mpr (by omega)
  unfold processAnchor at hrun
  rw [if_neg hnz'] at hrun
  cases hS : d.S[γ / d.numAnchorsPerScale]? with
  | none => simp only [hS] at hrun; cases hrun
  | some S =>
  simp only [hS] at hrun
  cases htgt : st.1[γ / d.numAnchorsPerScale]? with
  | none => simp only [htgt] at hrun; cases hrun
  | some tgt =>
  simp only [htgt] at hrun
  cases hra : idxA tgt.napc ((γ % d.numAnchorsPerScale : ℕ) : ℤ) with
  | none => simp only [hra] at hrun; cases hrun
  | some ra =>
  simp only [hra] at hrun
  cases hri : idxA tgt.S (cellI S b) with
  | none => simp only [hri] at hrun; cases hrun
  | some ri =>
  simp only [hri] at hrun
  cases hrj : idxA tgt.S (cellJ S b) with
  | none => simp only [hrj] at hrun; cases hrun
  | some rj =>
  simp only [hrj] at hrun
  by_cases h0 : (tgt.data ra ri rj).obj = 0
  · rw [if_pos h0] at hrun
    cases hha : st.2[γ / d.numAnchorsPerScale]? with
    | none => simp only [hha] at hrun; cases hrun
    | some ha =>
    simp only [hha] at hrun
    by_cases hfa : ha = false
    · rw [if_pos hfa] at hrun
      cases hrun
      exact List.getElem?_set_ne (by omega)
    · rw [if_neg hfa] at hrun
      cases hiou : ious[γ]? with
      | none => simp only [hiou] at hrun; cases hrun
      | some iouV =>
      simp only [hiou] at hrun
      by_cases hth : d.ignoreIouThresh < iouV
      · rw [if_pos hth] at hrun
        cases hrun
        exact List.getElem?_set_ne (by omega)
      · rw [if_neg hth] at hrun
        cases hrun
        rfl
  · rw [if_neg h0] at hrun
    cases hrun
    rfl

/-- The candidate fold never touches a scale index `≥ 3`. -/
theorem foldAnchors_high {d : YOLODataset} {b : Box}
    (hn3 : d.anchors.length = 3 * d.numAnchorsPerScale) :
    ∀ (cs : List ℕ) (st st' : List Tgt × List Bool),
      (∀ γ ∈ cs, γ < d.anchors.length) →
      cs.foldlM (processAnchor d b (iousOf d b)) st = some st' →
      ∀ s : ℕ, 3 ≤ s → st'.1[s]? = st.1[s]? := by
  intro cs
  induction cs with
  | nil =>
    intro st st' _ hrun s hs
    simp only [List.foldlM_nil] at hrun
    cases hrun
    rfl
  | cons γ rest ih =>
    intro st st' hlt hrun s hs
    rw [List.foldlM_cons] at hrun
    cases h1 : processAnchor d b (iousOf d b) st γ with
    | none =>
      rw [h1] at hrun
      simp only [Option.bind_eq_bind, Option.none_bind] at hrun
      cases hrun
    | some st1 =>
      rw [h1] at hrun
      simp only [Option.bind_eq_bind, Option.some_bind] at hrun
      rw [ih st1 st' (fun y hy => hlt y (by simp [hy])) hrun s hs]
      exact processAnchor_high hn3 (hlt γ (by simp)) h1 s hs

/-- Claim C10: the constructor and the encoder hard-code exactly three
detection scales: (i) construction concatenates exactly the first three
anchor groups, ignoring any further groups, with `anchors_per_scale` =
total `// 3`; (ii) fewer than three groups raise at construction; (iii)
with a scale list shorter than 3 (and a well-formed 3-group anchor set)
every box encoding raises; (iv) with a scale list longer than 3, scales
beyond index 2 are never written. -/
theorem claim10_hardcoded_three_scales :
    (∀ (imgSize : ℕ) (S : List ℕ) (g0 g1 g2 : List (ℚ × ℚ))
        (rest : List (List (ℚ × ℚ))),
      YOLODataset.init imgSize S (g0 :: g1 :: g2 :: rest) =
        some { imageSize := imgSize
               S := S
               anchors := g0 ++ g1 ++ g2
               numAnchors := (g0 ++ g1 ++ g2).length
               numAnchorsPerScale := (g0 ++ g1 ++ g2).length / 3
               ignoreIouThresh := 1 / 2 }) ∧
    (∀ (imgSize : ℕ) (S : List ℕ) (gs : List (List (ℚ × ℚ))),
      gs.length < 3 → YOLODataset.init imgSize S gs = none) ∧
    (∀ (d : YOLODataset) (T : List Tgt) (bx : Box),
      d.numAnchorsPerScale ≠ 0 →
      d.anchors.length = 3 * d.numAnchorsPerScale →
      d.S.length < 3 → processBox d T bx = none) ∧
    (∀ (d : YOLODataset) (T : List Tgt) (bx : Box) (T' : List Tgt),
      d.anchors.length = 3 * d.numAnchorsPerScale →
      processBox d T bx = some T' → ∀ s : ℕ, 3 ≤ s → T'[s]? = T[s]?) := by
  refine ⟨YOLODataset.init_eq, ?_, ?_, ?_⟩
  · intro imgSize S gs hlen
    match gs, hlen with
    | [], _ => rfl
    | [g0], _ => rfl
    | [g0, g1], _ => rfl
  · intro d T bx hnz hn3 hSlen
    have hmem : 2 * d.numAnchorsPerScale ∈ argsortDesc (iousOf d bx) := by
      rw [argsortDesc_mem, iousOf_length]
      omega
    have hfail : ∀ st, processAnchor d bx (iousOf d bx) st
        (2 * d.numAnchorsPerScale) = none := by
      intro st
      unfold processAnchor
      rw [if_neg hnz]
      have hdiv : 2 * d.numAnchorsPerScale / d.numAnchorsPerScale = 2 := by
        rw [Nat.mul_div_cancel _ (by omega)]
      have hS2 : d.S[2 * d.numAnchorsPerScale / d.numAnchorsPerScale]? = none := by
        rw [hdiv, List.getElem?_eq_none_iff]
        omega
      simp only [hS2]
    simp only [processBox,
      foldlM_none_of_mem hmem hfail (T, List.replicate 3 false),
      Option.bind_eq_bind, Option.none_bind]
  · intro d T bx T' hn3 hrun s hs
    simp only [processBox] at hrun
    cases h1 : (argsortDesc (iousOf d bx)).foldlM (processAnchor d bx (iousOf d bx))
        (T, List.replicate 3 false) with
    | none =>
      rw [h1] at hrun
      simp only [Option.bind_eq_bind, Option.none_bind] at hrun
      cases hrun
    | some stf =>
      rw [h1] at hrun
      simp only [Option.bind_eq_bind, Option.some_bind, Option.some_inj] at hrun
      subst hrun
      exact foldAnchors_high hn3 (argsortDesc (iousOf d bx)) _ stf
        (fun γ hγ => by rw [← iousOf_length d bx]; exact (argsortDesc_mem _ γ).mp hγ)
        h1 s hs

theorem exD1_wf : exD1.WellFormed := by
  refine ⟨by with_unfolding_all rfl, by with_unfolding_all rfl,
    by with_unfolding_all rfl, by norm_num [exD1], by with_unfolding_all rfl, ?_⟩
  intro S hS
  simp [exD1] at hS
  omega

/-- Claim C1, witness: encoding `exBx` from the zero state claims slot
`(0, 1, 1)` of scale 0 positively, and the theorem identifies it as the
best available anchor of that scale. -/
theorem claim1_witness :
    ∃ T' : List Tgt, processBox exD1 (buildTargets exD1) exBx = some T' ∧
      ∀ t' : Tgt, T'[0]? = some t' →
        (t'.data 0 1 1).obj = 1 ∧
        ∃ α ri rj : ℕ, α < exD1.anchors.length ∧
          α / exD1.numAnchorsPerScale = 0 ∧
          idxA exT0.S (cellI 2 exBx) = some ri ∧
          idxA exT0.S (cellJ 2 exBx) = some rj ∧
          ((0 : ℕ), (1 : ℕ), (1 : ℕ)) = (α % exD1.numAnchorsPerScale, ri, rj) ∧
          (exT0.data (α % exD1.numAnchorsPerScale) ri rj).obj = 0 ∧
          t'.data (α % exD1.numAnchorsPerScale) ri rj = payloadCell 2 exBx ∧
          ∀ β : ℕ, β < exD1.anchors.length → β / exD1.numAnchorsPerScale = 0 →
            (exT0.data (β % exD1.numAnchorsPerScale) ri rj).obj = 0 →
            iouAt exD1 exBx β ≤ iouAt exD1 exBx α := by
  have hsome : (processBox exD1 (buildTargets exD1) exBx).isSome = true := by
    with_unfolding_all rfl
  refine ⟨_, (Option.some_get hsome).symm, ?_⟩
  intro t' ht'
  have hv : ((processBox exD1 (buildTargets exD1) exBx).get hsome)[0]?.map
      (fun t => (t.data 0 1 1).obj) = some 1 := by
    with_unfolding_all rfl
  rw [ht'] at hv
  have hobj : (t'.data 0 1 1).obj = 1 := by simpa using hv
  refine ⟨hobj, ?_⟩
  exact (claim1_greedy_best_available exD1 exBx (buildTargets exD1) _ exD1_wf
    (buildTargets_match exD1_wf) (Option.some_get hsome).symm 0 (by omega) exT0 2 t'
    (by with_unfolding_all rfl) (by with_unfolding_all rfl) ht').2 0 1 1 hobj
    (by norm_num [exT0, TCell.zero])

/-- Claim C6, witness: the positive assignment written for `exBx` carries
the payload with in-range offsets, positive sizes and the box's class. -/
theorem claim6_witness :
    ∃ T' : List Tgt, processBox exD1 (buildTargets exD1) exBx = some T' ∧
      ∀ t' : Tgt, T'[0]? = some t' →
        (t'.data 0 1 1).obj = 1 ∧
        t'.data 0 1 1 = payloadCell 2 exBx ∧
        0 ≤ (t'.data 0 1 1).xc ∧ (t'.data 0 1 1).xc < 1 ∧
        0 < (t'.data 0 1 1).wc ∧ (t'.data 0 1 1).cls = ((0 : ℤ) : ℚ) := by
  have hsome : (processBox exD1 (buildTargets exD1) exBx).isSome = true := by
    with_unfolding_all rfl
  refine ⟨_, (Option.some_get hsome).symm, ?_⟩
  intro t' ht'
  have hv : ((processBox exD1 (buildTargets exD1) exBx).get hsome)[0]?.map
      (fun t => (t.data 0 1 1).obj) = some 1 := by
    with_unfolding_all rfl
  rw [ht'] at hv
  have hobj : (t'.data 0 1 1).obj = 1 := by simpa using hv
  obtain ⟨hp, -, -, hxc0, hxc1, -, -, -, hwc, -, -, hclsv⟩ :=
    claim6_payload_bounds exD1 exBx 0 (buildTargets exD1) _ exD1_wf
      (buildTargets_match exD1_wf) (Option.some_get hsome).symm
      (by norm_num [exBx]) (by norm_num [exBx]) (by norm_num [exBx])
      (by norm_num [exBx]) (by norm_num [exBx]) (by norm_num [exBx])
      (by norm_num [exBx]) 0 (by omega) exT0 2 t'
      (by with_unfolding_all rfl) (by with_unfolding_all rfl) ht' 0 1 1 hobj
      (by norm_num [exT0, TCell.zero])
  exact ⟨hobj, hp, hxc0, hxc1, hwc, hclsv⟩

/-- A box on the boundary: `x = 1`. -/
def exBadBx : Box := ⟨1, 1 / 2, 1, 1, 0⟩

/-- Claim C9, witness: the in-bounds box encodes; the `x = 1` box raises. -/
theorem claim9_witness :
    (∃ T' : List Tgt, encodeTargets exD1 [exBx] = some T') ∧
    cellJ 2 exBadBx = (2 : ℤ) ∧
    encodeTargets exD1 [exBadBx] = none := by
  refine ⟨?_, ?_, ?_⟩
  · exact (claim9_totality_boundary exD1 exBx [exBx] exD1_wf).1
      (by
        intro bx hbx
        simp at hbx
        subst hbx
        norm_num [exBx])
  · exact (claim9_totality_boundary exD1 exBadBx [] exD1_wf).2.1 2 (by norm_num [exBadBx])
  · exact (claim9_totality_boundary exD1 exBadBx [] exD1_wf).2.2.2
      (Or.inl (by norm_num [exBadBx]))

/-- A misconfigured dataset with only two scales. -/
def exDbad : YOLODataset :=
  { imageSize := 416
    S := [2, 2]
    anchors := [(1, 1), (1, 1), (1, 1)]
    numAnchors := 3
    numAnchorsPerScale := 1
    ignoreIouThresh := 1 / 2 }

/-- A dataset with four scales (the fourth can never be used). -/
def exD4 : YOLODataset :=
  { imageSize := 416
    S := [2, 2, 2, 2]
    anchors := [(1, 1), (1, 1), (1, 1)]
    numAnchors := 3
    numAnchorsPerScale := 1
    ignoreIouThresh := 1 / 2 }

/-- Claim C10, witness: a fourth anchor group is ignored by construction;
fewer than three groups raise; a two-scale config makes every box encoding
raise; with four scales the fourth tensor is never written. -/
theorem claim10_witness :
    (YOLODataset.init 416 [13, 26, 52] [[(1, 1)], [(2, 2)], [(3, 3)], [(5, 5)]] =
      some { imageSize := 416
             S := [13, 26, 52]
             anchors := [(1, 1), (2, 2), (3, 3)]
             numAnchors := 3
             numAnchorsPerScale := 1
             ignoreIouThresh := 1 / 2 }) ∧
    YOLODataset.init 416 [13, 26, 52] [[(1, 1)]] = none ∧
    processBox exDbad [exT0, exT0] exBx = none ∧
    ∃ T' : List Tgt, processBox exD4 (buildTargets exD4) exBx = some T' ∧
      T'[3]? = (buildTargets exD4)[3]? := by
  refine ⟨?_, ?_, ?_, ?_⟩
  · exact (claim10_hardcoded_three_scales.1 416 [13, 26, 52]
      [(1, 1)] [(2, 2)] [(3, 3)] [[(5, 5)]]).trans (by with_unfolding_all rfl)
  · exact claim10_hardcoded_three_scales.2.1 416 [13, 26, 52] [[(1, 1)]] (by simp)
  · exact claim10_hardcoded_three_scales.2.2.1 exDbad [exT0, exT0] exBx
      (by norm_num [exDbad]) (by with_unfolding_all rfl) (by norm_num [exDbad])
  · have hsome : (processBox exD4 (buildTargets exD4) exBx).isSome = true := by
      with_unfolding_all rfl
    refine ⟨_, (Option.some_get hsome).symm, ?_⟩
    exact claim10_hardcoded_three_scales.2.2.2 exD4 (buildTargets exD4) exBx _
      (by with_unfolding_all rfl) (Option.some_get hsome).symm 3 (by omega)
